import Mathlib

/-!
Verification of the fabric-mod-bisect-tool algorithm core.

This file embeds the algorithmic core of the repository (the delta-debugging /
minimal-conflict-set search engine from `docs/benchmark.py` and
`docs/enumeration.py`) into Lean and proves properties about it.

Components are modelled as natural numbers (the sources use small integers and
strings; all that is required is a hashable, totally ordered identifier).
Subsets of components are `Finset ℕ`, candidate pools carry an explicit
iteration order as `List ℕ` (mirroring Python's `list(...)` conversions; where
the source iterates over a `set`, the embedding quantifies over the order).

The test oracle is a stateful capability: calling it yields a boolean verdict
(`true` = FAIL, `false` = GOOD) and a new state.  The state covers both the
invocation counter of `TestRunner` and the cache of `KnowledgeBase`.  Each
oracle call is written as `match orc s X with | (verdict, s') => ...`: one
call, whose boolean result drives the branch, exactly as `oracle.run(X)` does
in the source.
-/

namespace BisectTool

/-- A stateful oracle over state type `σ`: given a state and a test set it
returns the verdict (`true` = FAIL) and the successor state. -/
abbrev Oracle (σ : Type) := σ → Finset ℕ → Bool × σ

/-- `TestRunner.run` from `benchmark.py`: the deterministic oracle that knows a
single secret problematic set, returns FAIL iff the tested set is a superset of
it, and increments its invocation counter `test_count` on every call. -/
def TestRunner.run (problematic_set : Finset ℕ) : Oracle ℕ :=
  fun test_count S => (decide (problematic_set ⊆ S), test_count + 1)

/-- `TestRunner.run_real_test` from `enumeration.py`: the oracle that knows a
list of independent conflict sets and fails iff at least one of them is
contained in the tested set; counts real invocations. -/
def TestRunner.run_real_test (problematic_sets : List (Finset ℕ)) : Oracle ℕ :=
  fun real_test_count S =>
    (problematic_sets.any (fun conflict => decide (conflict ⊆ S)), real_test_count + 1)

/-- A pure oracle with an invocation counter: the common shape of both
`TestRunner` variants (the verdict is a pure function of the tested set). -/
def countingOracle (f : Finset ℕ → Bool) : Oracle ℕ :=
  fun count S => (f S, count + 1)

/-- The state of `KnowledgeBase` from `enumeration.py`: the memoization cache
(an association of normalized subsets to their observed verdicts) together with
the state of the wrapped oracle. -/
structure KnowledgeBase (σ : Type) where
  cache : List (Finset ℕ × Bool)
  inner : σ

/-- `KnowledgeBase.test`: checks the cache first (`frozenset(test_set)` is the
key; `Finset ℕ` is already that normal form); on a miss it calls the real
oracle and stores the result. -/
def KnowledgeBase.test (orc : Oracle σ) : Oracle (KnowledgeBase σ) :=
  fun kb S =>
    match kb.cache.lookup S with
    | some result => (result, kb)
    | none =>
      match orc kb.inner S with
      | (result, s') => (result, ⟨(S, result) :: kb.cache, s'⟩)

/-! ## Algorithm 1: iterative additive search (`benchmark.py`) -/

/-- `_find_one_culprit_recursive`: binary-searches `search_pool` for the single
mod that, added to `base_set`, causes a failure. -/
def find_one_culprit_recursive (orc : Oracle σ) (s : σ) (base_set : Finset ℕ)
    (search_pool : List ℕ) : Option ℕ × σ :=
  match search_pool with
  | [] => (none, s)
  | [c] =>
    match orc s (base_set ∪ {c}) with
    | (verdict, s') => (if verdict then some c else none, s')
  | a :: b :: rest =>
    let pool := a :: b :: rest
    let mid := pool.length / 2
    let first_half := pool.take mid
    let second_half := pool.drop mid
    match orc s (base_set ∪ first_half.toFinset) with
    | (true, s') => find_one_culprit_recursive orc s' base_set first_half
    | (false, s') =>
      find_one_culprit_recursive orc s' (base_set ∪ first_half.toFinset) second_half
termination_by search_pool.length
decreasing_by
  · simp only [List.length_take, List.length_cons]
    omega
  · simp only [List.length_drop, List.length_cons]
    omega

/-- The culprit returned by `_find_one_culprit_recursive` is always drawn from
the search pool (for any oracle whatsoever). -/
theorem find_one_culprit_recursive_mem {orc : Oracle σ} {s : σ} {B : Finset ℕ}
    {l : List ℕ} {c : ℕ} (h : (find_one_culprit_recursive orc s B l).1 = some c) :
    c ∈ l := by
  induction s, B, l using find_one_culprit_recursive.induct orc with
  | case1 s B => simp [find_one_culprit_recursive] at h
  | case2 s B c' result s' horc =>
    simp only [find_one_culprit_recursive, horc] at h
    split at h <;> simp_all
  | case3 s B a b rest pool mid fh s' horc ih =>
    simp only [find_one_culprit_recursive, horc] at h
    exact List.mem_of_mem_take (ih h)
  | case4 s B a b rest pool mid fh sh s' horc ih =>
    simp only [find_one_culprit_recursive, horc] at h
    exact List.mem_of_mem_drop (ih h)

/-- `find_conflicts_additive`, the loop: while the confirmed culprits do not
fail on their own, search for the next culprit; a missing culprit raises
`RuntimeError`. -/
def additive_search_loop (orc : Oracle σ) (s : σ) (confirmed_culprits : Finset ℕ)
    (candidates : List ℕ) : Except String (Finset ℕ) × σ :=
  match orc s confirmed_culprits with
  | (true, s1) => (Except.ok confirmed_culprits, s1)
  | (false, s1) =>
    match h : find_one_culprit_recursive orc s1 confirmed_culprits candidates with
    | (some next_culprit, s2) =>
      additive_search_loop orc s2 (insert next_culprit confirmed_culprits)
        (candidates.erase next_culprit)
    | (none, s2) =>
      (Except.error "Additive search failed to find the next culprit.", s2)
termination_by candidates.length
decreasing_by
  have hmem : next_culprit ∈ candidates :=
    find_one_culprit_recursive_mem (by rw [h])
  have := List.length_erase_of_mem hmem
  have hpos : 0 < candidates.length := List.length_pos.mpr (List.ne_nil_of_mem hmem)
  omega

/-- `find_conflicts_additive`: initial failing check on the whole mod set, then
the iterative additive loop. -/
def find_conflicts_additive (orc : Oracle σ) (s : σ) (all_mods : List ℕ) :
    Except String (Finset ℕ) × σ :=
  match orc s all_mods.toFinset with
  | (false, s1) => (Except.ok ∅, s1)
  | (true, s1) => additive_search_loop orc s1 ∅ all_mods

/-! ## Algorithm 2: the smart additive (IMCS) search (`benchmark.py`, with an
identical modular copy in `enumeration.py`) -/

/-- The recursion of `_find_next_conflict_element_optimized` on the sorted
candidate list.  The source re-sorts the candidates on every recursive entry;
on the sorted slices it passes to itself sorting is the identity
(`List.Sorted.insertionSort_eq`), so the recursion is expressed directly on the
sorted list; the wrapper below performs the (real) initial sort. -/
def find_next_element_sorted (orc : Oracle σ) (s : σ) (background : Finset ℕ) :
    List ℕ → Option ℕ × σ
  | [] => (none, s)
  | [c] =>
    match orc s (background ∪ {c}) with
    | (verdict, s') => (if verdict then some c else none, s')
  | a :: b :: rest =>
    let candidates_list := a :: b :: rest
    let mid := candidates_list.length / 2
    let c1 := candidates_list.take mid
    let c2 := candidates_list.drop mid
    match orc s (background ∪ c1.toFinset) with
    | (true, s') =>
      if c1.length = 1 then (some c1.headI, s')
      else find_next_element_sorted orc s' background c1
    | (false, s') =>
      let new_background := background ∪ c1.toFinset
      if c2.length = 1 then
        match orc s' (new_background ∪ {c2.headI}) with
        | (verdict, s'') => (if verdict then some c2.headI else none, s'')
      else find_next_element_sorted orc s' new_background c2
termination_by l => l.length
decreasing_by
  · simp only [List.length_take, List.length_cons]
    omega
  · simp only [List.length_drop, List.length_cons]
    omega

/-- `_find_next_conflict_element_optimized`: sorts the candidates for
deterministic splitting, then divide and conquer with the two single-element
shortcuts of the source. -/
def find_next_conflict_element_optimized (orc : Oracle σ) (s : σ)
    (background : Finset ℕ) (candidates : List ℕ) : Option ℕ × σ :=
  find_next_element_sorted orc s background (candidates.insertionSort (· ≤ ·))

/-- The default-valued head of a nonempty list is a member of it. -/
theorem headI_mem_self {l : List ℕ} (h : l ≠ []) : l.headI ∈ l := by
  cases l with
  | nil => simp at h
  | cons a t => simp [List.headI]

/-- The element returned by the sorted-list recursion is always drawn from the
list (for any oracle whatsoever). -/
theorem find_next_element_sorted_mem {orc : Oracle σ} {s : σ}
    {B : Finset ℕ} {l : List ℕ} {c : ℕ}
    (h : (find_next_element_sorted orc s B l).1 = some c) :
    c ∈ l := by
  induction s, B, l using find_next_element_sorted.induct orc with
  | case1 s B =>
    simp [find_next_element_sorted] at h
  | case2 s B c' result s' horc =>
    simp only [find_next_element_sorted, horc] at h
    split at h <;> simp_all
  | case3 s B a b rest cl mid c1 s' horc hlen =>
    simp only [find_next_element_sorted, horc, hlen, reduceIte] at h
    have hne : c1 ≠ [] := by
      intro hemp
      rw [hemp] at hlen
      simp at hlen
    have hc : c ∈ c1 := Option.some.inj h ▸ headI_mem_self hne
    exact List.mem_of_mem_take hc
  | case4 s B a b rest cl mid c1 s' horc hlen ih =>
    simp only [find_next_element_sorted, horc, hlen, reduceIte] at h
    exact List.mem_of_mem_take (ih h)
  | case5 s B a b rest cl mid c1 c2 s' horc nb hlen result s'' horc2 =>
    simp only [find_next_element_sorted, horc, hlen, horc2, reduceIte] at h
    have hne : c2 ≠ [] := by
      intro hemp
      rw [hemp] at hlen
      simp at hlen
    have hc : c ∈ c2 := by
      split at h
      · exact Option.some.inj h ▸ headI_mem_self hne
      · exact absurd h (by simp)
    exact List.mem_of_mem_drop hc
  | case6 s B a b rest cl mid c1 c2 s' horc nb hlen ih =>
    simp only [find_next_element_sorted, horc, hlen, reduceIte] at h
    exact List.mem_of_mem_drop (ih h)

/-- The element returned by `_find_next_conflict_element_optimized` is always
drawn from the candidate pool (for any oracle whatsoever). -/
theorem find_next_conflict_element_optimized_mem {orc : Oracle σ} {s : σ}
    {B : Finset ℕ} {l : List ℕ} {c : ℕ}
    (h : (find_next_conflict_element_optimized orc s B l).1 = some c) :
    c ∈ l := by
  rw [find_next_conflict_element_optimized] at h
  exact (List.mem_insertionSort _).mp (find_next_element_sorted_mem h)

/-- `find_conflicts_smart_additive` / `find_single_conflict_set`, the loop:
find the next conflict element, fold it into the conflict set, and stop early
as soon as the accumulated conflict set alone already fails. -/
def smart_additive_loop (orc : Oracle σ) (s : σ) (conflict_set : Finset ℕ)
    (candidates : List ℕ) : Finset ℕ × σ :=
  match hnext : find_next_conflict_element_optimized orc s conflict_set candidates with
  | (none, s1) => (conflict_set, s1)
  | (some next_element, s1) =>
    match orc s1 (insert next_element conflict_set) with
    | (true, s2) => (insert next_element conflict_set, s2)
    | (false, s2) =>
      smart_additive_loop orc s2 (insert next_element conflict_set)
        (candidates.erase next_element)
termination_by candidates.length
decreasing_by
  have hmem : next_element ∈ candidates :=
    find_next_conflict_element_optimized_mem (by rw [hnext])
  have := List.length_erase_of_mem hmem
  have hpos : 0 < candidates.length := List.length_pos.mpr (List.ne_nil_of_mem hmem)
  omega

/-- `find_conflicts_smart_additive` from `benchmark.py`: the Iterative Minimal
Conflict Search (IMCS) algorithm, starting from the sorted candidate list. -/
def find_conflicts_smart_additive (orc : Oracle σ) (s : σ) (all_mods : List ℕ) :
    Finset ℕ × σ :=
  smart_additive_loop orc s ∅ (all_mods.insertionSort (· ≤ ·))

/-- `find_single_conflict_set` from `enumeration.py`: the same IMCS procedure,
adapted only in that it takes a generic test function (here: a generic oracle);
its body is line for line the loop of `find_conflicts_smart_additive`. -/
def find_single_conflict_set (test_func : Oracle σ) (s : σ)
    (all_components : List ℕ) : Finset ℕ × σ :=
  smart_additive_loop test_func s ∅ (all_components.insertionSort (· ≤ ·))

/-! ## Algorithm 3: classic ddmin, subtractive (`benchmark.py`) -/

/-- The round-robin partition `mods_list[i::granularity]` used by ddmin. -/
def partition_slice (mods_list : List ℕ) (i granularity : ℕ) : List ℕ :=
  (mods_list.enum.filter (fun p => p.1 % granularity = i)).map Prod.snd

/-- The partition scan of one ddmin pass: try each partition in order (empty
partitions are skipped without an oracle call), testing its complement; the
first failing complement is returned. -/
def ddmin_scan (orc : Oracle σ) (s : σ) (test_set mods_list : List ℕ)
    (granularity : ℕ) : List ℕ → Option (List ℕ) × σ
  | [] => (none, s)
  | i :: is =>
    let p := partition_slice mods_list i granularity
    if p = [] then ddmin_scan orc s test_set mods_list granularity is
    else
      let complement := test_set.filter (fun x => x ∉ p)
      match orc s complement.toFinset with
      | (true, s') => (some complement, s')
      | (false, s') => ddmin_scan orc s' test_set mods_list granularity is

/-- A list filtered by a predicate that some member falsifies gets strictly
shorter. -/
theorem length_filter_lt_of_mem {l : List ℕ} {p : ℕ → Bool} {x : ℕ}
    (hx : x ∈ l) (hpx : ¬ p x) : (l.filter p).length < l.length := by
  have hsub : (l.filter p).Sublist l := List.filter_sublist l
  rcases hsub.length_le.lt_or_eq with h | h
  · exact h
  · have heq := hsub.eq_of_length h
    have hmem : x ∈ l.filter p := heq.symm ▸ hx
    exact absurd (List.of_mem_filter hmem) hpx

/-- Members of a round-robin partition are members of the partitioned list. -/
theorem partition_slice_subset {mods_list : List ℕ} {i g : ℕ} {x : ℕ}
    (hx : x ∈ partition_slice mods_list i g) : x ∈ mods_list := by
  rcases List.mem_map.mp hx with ⟨q, hq, rfl⟩
  exact List.getElem?_mem (List.mem_enum_iff_getElem?.mp (List.mem_of_mem_filter hq))

/-- A successful ddmin partition scan strictly shrinks the working set
(the removed partition is nonempty). -/
theorem ddmin_scan_some_length {orc : Oracle σ} {s : σ}
    {test_set mods_list : List ℕ} {g : ℕ} {is : List ℕ} {comp : List ℕ}
    (hml : ∀ x ∈ mods_list, x ∈ test_set)
    (h : (ddmin_scan orc s test_set mods_list g is).1 = some comp) :
    comp.length < test_set.length := by
  induction is generalizing s with
  | nil => simp [ddmin_scan] at h
  | cons i is ih =>
    rw [ddmin_scan] at h
    split at h
    · exact ih h
    · rename_i hp
      rcases horc : orc s (test_set.filter
          (fun x => x ∉ partition_slice mods_list i g)).toFinset with ⟨verdict, s'⟩
      rcases verdict with _ | _
      · simp only [horc] at h
        exact ih h
      · simp only [horc] at h
        have hcomp : comp = test_set.filter (fun x => x ∉ partition_slice mods_list i g) :=
          (Option.some.inj h).symm
        subst hcomp
        rcases List.exists_mem_of_ne_nil _ hp with ⟨y, hy⟩
        have hyt : y ∈ test_set := hml y (partition_slice_subset hy)
        exact length_filter_lt_of_mem hyt (by simpa using hy)

/-- The ddmin main loop: repeatedly try to remove a partition; on success reset
granularity to 2, otherwise double it (capped at the working set size) or stop.
The argument `hg` records that the granularity is positive (it is 2 at entry
and stays so), which the source relies on for progress. -/
def ddmin_loop (orc : Oracle σ) (s : σ) (test_set : List ℕ) (granularity : ℕ)
    (hg : 0 < granularity) : List ℕ × σ :=
  if hlen2 : test_set.length < 2 then (test_set, s)
  else
    let mods_list := test_set.insertionSort (· ≤ ·)
    match hscan : ddmin_scan orc s test_set mods_list granularity
        (List.range granularity) with
    | (some complement, s') => ddmin_loop orc s' complement 2 (by omega)
    | (none, s') =>
      if hrange : granularity < test_set.length then
        ddmin_loop orc s' test_set (min test_set.length (granularity * 2)) (by omega)
      else (test_set, s')
termination_by (test_set.length, test_set.length - granularity)
decreasing_by
  · apply Prod.Lex.left
    have hml : ∀ x ∈ test_set.insertionSort (· ≤ ·), x ∈ test_set :=
      fun x hx => (List.mem_insertionSort _).mp hx
    exact ddmin_scan_some_length hml (by rw [hscan])
  · apply Prod.Lex.right
    omega

/-- `find_conflicts_subtractive_ddmin` from `benchmark.py`. -/
def find_conflicts_subtractive_ddmin (orc : Oracle σ) (s : σ)
    (all_mods : List ℕ) : Finset ℕ × σ :=
  match orc s all_mods.toFinset with
  | (false, s1) => (∅, s1)
  | (true, s1) =>
    match ddmin_loop orc s1 all_mods 2 (by omega) with
    | (ts, s2) => (ts.toFinset, s2)

/-! ## Algorithm 4: QuickXplain (`benchmark.py`) -/

/-- `_quickxplain_recursive`: the recursive core of QuickXplain.  The guard
`not candidates or oracle.run(background)` is short-circuited exactly as in
Python: the oracle is not consulted when the candidate set is empty. -/
def quickxplain_recursive (orc : Oracle σ) (s : σ) (background : Finset ℕ)
    (candidates : List ℕ) : Finset ℕ × σ :=
  if hc : candidates = [] then (∅, s)
  else
    match orc s background with
    | (true, s1) => (∅, s1)
    | (false, s1) =>
      if hl : candidates.length = 1 then (candidates.toFinset, s1)
      else
        let candidate_list := candidates
        let mid := candidate_list.length / 2
        let c1 := candidate_list.take mid
        let c2 := candidate_list.drop mid
        match quickxplain_recursive orc s1 (background ∪ c1.toFinset) c2 with
        | (cs2, s2) =>
          match quickxplain_recursive orc s2 (background ∪ cs2) c1 with
          | (cs1, s3) => (cs1 ∪ cs2, s3)
termination_by candidates.length
decreasing_by
  · have h0 : candidates.length ≠ 0 := by simpa using hc
    simp only [List.length_drop]
    omega
  · have h0 : candidates.length ≠ 0 := by simpa using hc
    simp only [List.length_take]
    omega

/-- `find_conflicts_qxp` from `benchmark.py`. -/
def find_conflicts_qxp (orc : Oracle σ) (s : σ) (all_mods : List ℕ) :
    Finset ℕ × σ :=
  match orc s all_mods.toFinset with
  | (false, s1) => (∅, s1)
  | (true, s1) => quickxplain_recursive orc s1 ∅ all_mods

/-! ## Algorithm 5: the adaptive hybrid (`benchmark.py`) -/

/-- The number of candidates below which the adaptive algorithm switches to the
QuickXplain strategy. -/
def ADAPTIVE_THRESHOLD : ℕ := 50

/-- `_adaptive_recursive`: QuickXplain-style recursion on small candidate
pools, single-culprit peeling on large ones. -/
def adaptive_recursive (orc : Oracle σ) (s : σ) (background : Finset ℕ)
    (candidates : List ℕ) : Finset ℕ × σ :=
  if hc : candidates = [] then (∅, s)
  else
    match orc s background with
    | (true, s1) => (∅, s1)
    | (false, s1) =>
      if candidates.length ≤ ADAPTIVE_THRESHOLD then
        if hl : candidates.length = 1 then (candidates.toFinset, s1)
        else
          let candidate_list := candidates
          let mid := candidate_list.length / 2
          let c1 := candidate_list.take mid
          let c2 := candidate_list.drop mid
          match adaptive_recursive orc s1 (background ∪ c1.toFinset) c2 with
          | (cs2, s2) =>
            match adaptive_recursive orc s2 (background ∪ cs2) c1 with
            | (cs1, s3) => (cs1 ∪ cs2, s3)
      else
        match hculprit : find_one_culprit_recursive orc s1 background candidates with
        | (some next_culprit, s2) =>
          match adaptive_recursive orc s2 (background ∪ {next_culprit})
              (candidates.erase next_culprit) with
          | (rest, s3) => ({next_culprit} ∪ rest, s3)
        | (none, s2) => (∅, s2)
termination_by candidates.length
decreasing_by
  · have h0 : candidates.length ≠ 0 := by simpa using hc
    simp only [List.length_drop]
    omega
  · have h0 : candidates.length ≠ 0 := by simpa using hc
    simp only [List.length_take]
    omega
  · have hmem : next_culprit ∈ candidates :=
      find_one_culprit_recursive_mem (by rw [hculprit])
    have := List.length_erase_of_mem hmem
    have hpos : 0 < candidates.length := List.length_pos.mpr (List.ne_nil_of_mem hmem)
    omega

/-- `find_conflicts_adaptive` from `benchmark.py`. -/
def find_conflicts_adaptive (orc : Oracle σ) (s : σ) (all_mods : List ℕ) :
    Finset ℕ × σ :=
  match orc s all_mods.toFinset with
  | (false, s1) => (∅, s1)
  | (true, s1) => adaptive_recursive orc s1 ∅ all_mods

/-! ## The IMCS enumerator (`enumeration.py`) -/

/-- The `while True` loop of `find_all_conflict_sets_enumerator`, with an
explicit fuel bound (the loop strictly shrinks the candidate pool, so
`|universe| + 1` fuel always suffices; `none` marks fuel exhaustion and is
proved unreachable below). -/
def enumerator_loop (orc : Oracle σ) (fuel : ℕ) (candidates : List ℕ)
    (kb : KnowledgeBase σ) : Option (List (Finset ℕ)) × KnowledgeBase σ :=
  match fuel with
  | 0 => (none, kb)
  | fuel + 1 =>
    match find_single_conflict_set (KnowledgeBase.test orc) kb candidates with
    | (new_conflict_set, kb1) =>
      if new_conflict_set = ∅ then (some [], kb1)
      else
        let candidates' := candidates.filter (fun x => x ∉ new_conflict_set)
        match KnowledgeBase.test orc kb1 candidates'.toFinset with
        | (true, kb2) =>
          match enumerator_loop orc fuel candidates' kb2 with
          | (some rest, kb3) => (some (new_conflict_set :: rest), kb3)
          | (none, kb3) => (none, kb3)
        | (false, kb2) => (some [new_conflict_set], kb2)

/-- `find_all_conflict_sets_enumerator` from `enumeration.py`: initialize the
shared knowledge base once, then repeatedly run IMCS over the shrinking
candidate pool. -/
def find_all_conflict_sets_enumerator (orc : Oracle σ) (s : σ)
    (all_components : List ℕ) : Option (List (Finset ℕ)) × KnowledgeBase σ :=
  enumerator_loop orc (all_components.length + 1) all_components ⟨[], s⟩

/-! ## Oracle specifications -/

/-- A boolean subset predicate is monotone when failure is preserved by
supersets (the oracle contract of the spec). -/
def MonotoneOracle (f : Finset ℕ → Bool) : Prop :=
  ∀ ⦃S T : Finset ℕ⦄, S ⊆ T → f S = true → f T = true

/-- A stateful oracle is faithful to a pure verdict function `f` on the states
satisfying the invariant `Good`: from a good state every call answers `f` and
lands in a good state. -/
def Faithful (orc : Oracle σ) (f : Finset ℕ → Bool) (Good : σ → Prop) : Prop :=
  ∀ s S, Good s → (orc s S).1 = f S ∧ Good (orc s S).2

theorem countingOracle_faithful (f : Finset ℕ → Bool) :
    Faithful (countingOracle f) f (fun _ => True) :=
  fun _ _ _ => ⟨rfl, trivial⟩

theorem TestRunner_run_faithful (P : Finset ℕ) :
    Faithful (TestRunner.run P) (fun S => decide (P ⊆ S)) (fun _ => True) :=
  fun _ _ _ => ⟨rfl, trivial⟩

theorem TestRunner_run_real_test_faithful (ps : List (Finset ℕ)) :
    Faithful (TestRunner.run_real_test ps)
      (fun S => ps.any (fun conflict => decide (conflict ⊆ S))) (fun _ => True) :=
  fun _ _ _ => ⟨rfl, trivial⟩

/-- The supersets-of-a-planted-set oracle is monotone. -/
theorem planted_monotone (P : Finset ℕ) :
    MonotoneOracle (fun S => decide (P ⊆ S)) := by
  intro S T hST h
  simp only [decide_eq_true_eq] at *
  exact h.trans hST

/-- The any-planted-subset oracle is monotone. -/
theorem planted_any_monotone (ps : List (Finset ℕ)) :
    MonotoneOracle (fun S => ps.any (fun conflict => decide (conflict ⊆ S))) := by
  intro S T hST h
  simp only [List.any_eq_true, decide_eq_true_eq] at *
  rcases h with ⟨C, hC, hCS⟩
  exact ⟨C, hC, hCS.trans hST⟩

/-! ## The prefix-scan characterization of the single-fault searches

Under a monotone oracle, both `_find_one_culprit_recursive` and
`_find_next_conflict_element_optimized` compute the same element as a simple
left-to-right scan: fold candidates into the background one by one and return
the first element whose addition flips the verdict to FAIL. -/

/-- Left-to-right scan: return the first element of the list whose addition to
the accumulated background makes `f` fail. -/
def first_culprit_spec (f : Finset ℕ → Bool) (B : Finset ℕ) : List ℕ → Option ℕ
  | [] => none
  | c :: rest =>
    if f (B ∪ {c}) then some c else first_culprit_spec f (B ∪ {c}) rest

/-- Set algebra: consing onto the pool folds one element into the background. -/
theorem union_cons_eq (B : Finset ℕ) (a : ℕ) (l : List ℕ) :
    B ∪ (a :: l).toFinset = (B ∪ {a}) ∪ l.toFinset := by
  ext x
  simp only [Finset.mem_union, List.toFinset_cons, Finset.mem_insert,
    Finset.mem_singleton, List.mem_toFinset]
  tauto

theorem fcs_mem {f : Finset ℕ → Bool} {B : Finset ℕ} {l : List ℕ} {c : ℕ}
    (h : first_culprit_spec f B l = some c) : c ∈ l := by
  induction l generalizing B with
  | nil => simp [first_culprit_spec] at h
  | cons a rest ih =>
    rw [first_culprit_spec] at h
    split at h
    · simp at h
      simp [h]
    · exact List.mem_cons_of_mem a (ih h)

theorem fcs_some_cert {f : Finset ℕ → Bool} {B : Finset ℕ} {l : List ℕ} {c : ℕ}
    (hB : f B = false) (h : first_culprit_spec f B l = some c) :
    ∃ p r, l = p ++ c :: r ∧ f (B ∪ p.toFinset) = false ∧
      f (B ∪ p.toFinset ∪ {c}) = true := by
  induction l generalizing B with
  | nil => simp [first_culprit_spec] at h
  | cons a rest ih =>
    rw [first_culprit_spec] at h
    split at h
    · rename_i htrue
      have hca : c = a := by simpa using h.symm
      subst hca
      exact ⟨[], rest, rfl, by simpa using hB, by simpa using htrue⟩
    · rename_i hfalse
      have hBa : f (B ∪ {a}) = false := by simpa using hfalse
      rcases ih hBa h with ⟨p, r, hl, hp, hpc⟩
      refine ⟨a :: p, r, by rw [hl, List.cons_append], ?_, ?_⟩
      · rw [union_cons_eq]
        exact hp
      · rw [union_cons_eq]
        exact hpc

theorem fcs_none_tail {f : Finset ℕ → Bool} {B : Finset ℕ} {l : List ℕ}
    (h : first_culprit_spec f B l = none) :
    l = [] ∨ f (B ∪ l.toFinset) = false := by
  induction l generalizing B with
  | nil => exact Or.inl rfl
  | cons a rest ih =>
    rw [first_culprit_spec] at h
    split at h
    · simp at h
    · rename_i hfalse
      right
      rcases ih h with hnil | hf
      · subst hnil
        simpa using hfalse
      · rw [union_cons_eq]
        exact hf

theorem fcs_none_of_monotone {f : Finset ℕ → Bool} {B : Finset ℕ} {l : List ℕ}
    (hm : MonotoneOracle f) (h : f (B ∪ l.toFinset) = false) :
    first_culprit_spec f B l = none := by
  induction l generalizing B with
  | nil => rfl
  | cons a rest ih =>
    rw [first_culprit_spec]
    rw [union_cons_eq] at h
    have hsub : B ∪ {a} ⊆ B ∪ {a} ∪ rest.toFinset := Finset.subset_union_left
    have hBa : f (B ∪ {a}) = false := by
      rcases hfa : f (B ∪ {a}) with _ | _
      · rfl
      · exact absurd ((hm hsub hfa).symm.trans h) (by simp)
    rw [hBa]
    simp only [Bool.false_eq_true, if_false]
    exact ih h

theorem fcs_append_some {f : Finset ℕ → Bool} {B : Finset ℕ} {l1 l2 : List ℕ}
    {c : ℕ} (h : first_culprit_spec f B l1 = some c) :
    first_culprit_spec f B (l1 ++ l2) = some c := by
  induction l1 generalizing B with
  | nil => simp [first_culprit_spec] at h
  | cons a rest ih =>
    rw [first_culprit_spec] at h
    rw [List.cons_append, first_culprit_spec]
    split at h
    · rename_i htrue
      rw [if_pos htrue]
      exact h
    · rename_i hfalse
      rw [if_neg hfalse]
      exact ih h

theorem fcs_append_none {f : Finset ℕ → Bool} {B : Finset ℕ} {l1 l2 : List ℕ}
    (h : first_culprit_spec f B l1 = none) :
    first_culprit_spec f B (l1 ++ l2) = first_culprit_spec f (B ∪ l1.toFinset) l2 := by
  induction l1 generalizing B with
  | nil => simp
  | cons a rest ih =>
    rw [first_culprit_spec] at h
    rw [List.cons_append, first_culprit_spec]
    split at h
    · simp at h
    · rename_i hfalse
      rw [if_neg hfalse, ih h, union_cons_eq]

theorem fcs_stops_within {f : Finset ℕ → Bool} {B : Finset ℕ} {l1 : List ℕ}
    (hB : f B = false) (hT : f (B ∪ l1.toFinset) = true) (l2 : List ℕ) :
    ∃ c p r, first_culprit_spec f B (l1 ++ l2) = some c ∧ l1 = p ++ c :: r ∧
      f (B ∪ p.toFinset) = false ∧ f (B ∪ p.toFinset ∪ {c}) = true := by
  induction l1 generalizing B with
  | nil =>
    simp only [List.toFinset_nil, Finset.union_empty] at hT
    rw [hB] at hT
    exact absurd hT (by simp)
  | cons a rest ih =>
    rcases hfa : f (B ∪ {a}) with _ | _
    · rw [union_cons_eq] at hT
      rcases ih hfa hT with ⟨c, p, r, hspec, hr, hp, hpc⟩
      refine ⟨c, a :: p, r, ?_, by rw [hr, List.cons_append], ?_, ?_⟩
      · rw [List.cons_append, first_culprit_spec, if_neg (by simp [hfa])]
        exact hspec
      · rw [union_cons_eq]
        exact hp
      · rw [union_cons_eq]
        exact hpc
    · refine ⟨a, [], rest, ?_, rfl, by simpa using hB, by simpa using hfa⟩
      rw [List.cons_append, first_culprit_spec, if_pos (by simp [hfa])]

theorem fcs_some_mem_front {f : Finset ℕ → Bool} {B : Finset ℕ}
    {l1 l2 : List ℕ} {c : ℕ} (hB : f B = false)
    (h : first_culprit_spec f B (l1 ++ l2) = some c)
    (hT : f (B ∪ l1.toFinset) = true) : c ∈ l1 := by
  rcases fcs_stops_within hB hT l2 with ⟨c', p, r, hspec, hl1, _, _⟩
  rw [h] at hspec
  have : c' = c := by simpa using hspec.symm
  subst this
  rw [hl1]
  simp

/-- Under a faithful oracle and a monotone verdict, the binary search
`_find_one_culprit_recursive` computes exactly the first-culprit scan, and
preserves the state invariant. -/
theorem find_one_culprit_recursive_spec {orc : Oracle σ} {f : Finset ℕ → Bool}
    {Good : σ → Prop} (hF : Faithful orc f Good) (hm : MonotoneOracle f)
    {s : σ} (B : Finset ℕ) (l : List ℕ) (hs : Good s) :
    (find_one_culprit_recursive orc s B l).1 = first_culprit_spec f B l ∧
    Good (find_one_culprit_recursive orc s B l).2 := by
  induction s, B, l using find_one_culprit_recursive.induct orc with
  | case1 s B =>
    simp [find_one_culprit_recursive, first_culprit_spec, hs]
  | case2 s B c' verdict s' horc =>
    have hfact := hF s (B ∪ {c'}) hs
    rw [horc] at hfact
    simp only [find_one_culprit_recursive, horc, first_culprit_spec]
    rw [← hfact.1]
    rcases verdict with _ | _ <;> simp [first_culprit_spec, hfact.2]
  | case3 s B a b rest pool mid fh s' horc ih =>
    have hfh : fh = (a :: b :: rest).take ((a :: b :: rest).length / 2) := rfl
    have hfact := hF s (B ∪ fh.toFinset) hs
    rw [horc] at hfact
    have hT : f (B ∪ fh.toFinset) = true := hfact.1.symm
    rcases ih hfact.2 with ⟨ih1, ih2⟩
    simp only [find_one_culprit_recursive, horc]
    refine ⟨?_, ih2⟩
    rw [ih1]
    have hsplit : fh ++ (a :: b :: rest).drop ((a :: b :: rest).length / 2) =
        a :: b :: rest := by
      rw [hfh]
      exact List.take_append_drop _ _
    rcases hspec : first_culprit_spec f B fh with _ | c
    · rcases fcs_none_tail hspec with hnil | hf
      · exfalso
        have := congrArg List.length hnil
        rw [hfh] at this
        simp only [List.length_take, List.length_cons, List.length_nil] at this
        omega
      · rw [hf] at hT
        exact absurd hT (by simp)
    · rw [← hsplit]
      exact (fcs_append_some hspec).symm
  | case4 s B a b rest pool mid fh sh s' horc ih =>
    have hfh : fh = (a :: b :: rest).take ((a :: b :: rest).length / 2) := rfl
    have hsh : sh = (a :: b :: rest).drop ((a :: b :: rest).length / 2) := rfl
    have hfact := hF s (B ∪ fh.toFinset) hs
    rw [horc] at hfact
    have hf : f (B ∪ fh.toFinset) = false := hfact.1.symm
    rcases ih hfact.2 with ⟨ih1, ih2⟩
    simp only [find_one_culprit_recursive, horc]
    refine ⟨?_, ih2⟩
    rw [ih1]
    have hsplit : fh ++ sh = a :: b :: rest := by
      rw [hfh, hsh]
      exact List.take_append_drop _ _
    rw [← hsplit, fcs_append_none (fcs_none_of_monotone hm hf)]

/-- Same characterization for the sorted-list recursion of
`_find_next_conflict_element_optimized` (the two shortcuts return the same
element the scan does). -/
theorem find_next_element_sorted_spec {orc : Oracle σ} {f : Finset ℕ → Bool}
    {Good : σ → Prop} (hF : Faithful orc f Good) (hm : MonotoneOracle f)
    {s : σ} {B : Finset ℕ} {l : List ℕ} (hs : Good s) :
    (find_next_element_sorted orc s B l).1 = first_culprit_spec f B l ∧
    Good (find_next_element_sorted orc s B l).2 := by
  induction s, B, l using find_next_element_sorted.induct orc with
  | case1 s B =>
    simp [find_next_element_sorted, first_culprit_spec, hs]
  | case2 s B c' verdict s' horc =>
    have hfact := hF s (B ∪ {c'}) hs
    rw [horc] at hfact
    simp only [find_next_element_sorted, horc, first_culprit_spec]
    rw [← hfact.1]
    rcases verdict with _ | _ <;> simp [first_culprit_spec, hfact.2]
  | case3 s B a b rest cl mid c1 s' horc hlen =>
    have hc1 : c1 = (a :: b :: rest).take ((a :: b :: rest).length / 2) := rfl
    have hfact := hF s (B ∪ c1.toFinset) hs
    rw [horc] at hfact
    have hT : f (B ∪ c1.toFinset) = true := hfact.1.symm
    simp only [find_next_element_sorted, horc, hlen, reduceIte]
    refine ⟨?_, hfact.2⟩
    rcases List.length_eq_one.mp hlen with ⟨x, hx⟩
    have hx1 : c1.headI = x := by rw [hx]; rfl
    have hsplit : c1 ++ (a :: b :: rest).drop ((a :: b :: rest).length / 2) =
        a :: b :: rest := by
      rw [hc1]
      exact List.take_append_drop _ _
    have hfx : f (B ∪ {x}) = true := by
      rw [hx] at hT
      simpa using hT
    have hspec : first_culprit_spec f B c1 = some x := by
      rw [hx, first_culprit_spec, if_pos hfx]
    rw [hx1, ← hsplit]
    exact (fcs_append_some hspec).symm
  | case4 s B a b rest cl mid c1 s' horc hlen ih =>
    have hc1 : c1 = (a :: b :: rest).take ((a :: b :: rest).length / 2) := rfl
    have hfact := hF s (B ∪ c1.toFinset) hs
    rw [horc] at hfact
    have hT : f (B ∪ c1.toFinset) = true := hfact.1.symm
    rcases ih hfact.2 with ⟨ih1, ih2⟩
    simp only [find_next_element_sorted, horc, hlen, reduceIte]
    refine ⟨?_, ih2⟩
    rw [ih1]
    have hsplit : c1 ++ (a :: b :: rest).drop ((a :: b :: rest).length / 2) =
        a :: b :: rest := by
      rw [hc1]
      exact List.take_append_drop _ _
    rcases hspec : first_culprit_spec f B c1 with _ | c
    · rcases fcs_none_tail hspec with hnil | hf
      · exfalso
        have := congrArg List.length hnil
        rw [hc1] at this
        simp only [List.length_take, List.length_cons, List.length_nil] at this
        omega
      · rw [hf] at hT
        exact absurd hT (by simp)
    · rw [← hsplit]
      exact (fcs_append_some hspec).symm
  | case5 s B a b rest cl mid c1 c2 s' horc nb hlen verdict s'' horc2 =>
    have hc1 : c1 = (a :: b :: rest).take ((a :: b :: rest).length / 2) := rfl
    have hc2 : c2 = (a :: b :: rest).drop ((a :: b :: rest).length / 2) := rfl
    have hfact := hF s (B ∪ c1.toFinset) hs
    rw [horc] at hfact
    have hf : f (B ∪ c1.toFinset) = false := hfact.1.symm
    have hfact2 := hF s' (B ∪ c1.toFinset ∪ {c2.headI}) hfact.2
    rw [horc2] at hfact2
    simp only [find_next_element_sorted, horc, hlen, horc2, reduceIte]
    refine ⟨?_, hfact2.2⟩
    have hsplit : c1 ++ c2 = a :: b :: rest := by
      rw [hc1, hc2]
      exact List.take_append_drop _ _
    have hspec_full : first_culprit_spec f B (a :: b :: rest) =
        first_culprit_spec f (B ∪ c1.toFinset) c2 := by
      rw [← hsplit]
      exact fcs_append_none (fcs_none_of_monotone hm hf)
    rw [hspec_full]
    rcases List.length_eq_one.mp hlen with ⟨x, hx⟩
    have hx1 : c2.headI = x := by rw [hx]; rfl
    have hv : verdict = f (B ∪ c1.toFinset ∪ {x}) := by
      rw [← hx1]
      exact hfact2.1
    rw [hx1, hx, first_culprit_spec, ← hv]
    rcases verdict with _ | _ <;> simp [first_culprit_spec]
  | case6 s B a b rest cl mid c1 c2 s' horc nb hlen ih =>
    have hc1 : c1 = (a :: b :: rest).take ((a :: b :: rest).length / 2) := rfl
    have hc2 : c2 = (a :: b :: rest).drop ((a :: b :: rest).length / 2) := rfl
    have hfact := hF s (B ∪ c1.toFinset) hs
    rw [horc] at hfact
    have hf : f (B ∪ c1.toFinset) = false := hfact.1.symm
    rcases ih hfact.2 with ⟨ih1, ih2⟩
    simp only [find_next_element_sorted, horc, hlen, reduceIte]
    refine ⟨?_, ih2⟩
    rw [ih1]
    have hsplit : c1 ++ c2 = a :: b :: rest := by
      rw [hc1, hc2]
      exact List.take_append_drop _ _
    rw [← hsplit, fcs_append_none (fcs_none_of_monotone hm hf)]

/-- `_find_next_conflict_element_optimized` computes the first-culprit scan of
the sorted candidate list. -/
theorem find_next_conflict_element_optimized_spec {orc : Oracle σ}
    {f : Finset ℕ → Bool} {Good : σ → Prop} (hF : Faithful orc f Good)
    (hm : MonotoneOracle f) {s : σ} (B : Finset ℕ) (l : List ℕ) (hs : Good s) :
    (find_next_conflict_element_optimized orc s B l).1 =
      first_culprit_spec f B (l.insertionSort (· ≤ ·)) ∧
    Good (find_next_conflict_element_optimized orc s B l).2 := by
  rw [find_next_conflict_element_optimized]
  exact find_next_element_sorted_spec hF hm hs

/-! ## Helpers for the iterative peeling loops -/

/-- Monotonicity used downward: shrinking a good set keeps it good. -/
theorem monotone_false {f : Finset ℕ → Bool} (hm : MonotoneOracle f)
    {X Y : Finset ℕ} (hXY : X ⊆ Y) (hY : f Y = false) : f X = false := by
  rcases hfX : f X with _ | _
  · rfl
  · exact absurd ((hm hXY hfX).symm.trans hY) (by simp)

theorem insert_union_eq (C p : Finset ℕ) (c : ℕ) :
    insert c C ∪ p = C ∪ p ∪ {c} := by
  ext x
  simp only [Finset.mem_insert, Finset.mem_union, Finset.mem_singleton]
  tauto

theorem insert_union_toFinset_erase {l : List ℕ} {c : ℕ} (hnd : l.Nodup)
    (hc : c ∈ l) (C : Finset ℕ) :
    insert c C ∪ (l.erase c).toFinset = C ∪ l.toFinset := by
  ext x
  simp only [Finset.mem_insert, Finset.mem_union, List.mem_toFinset,
    hnd.mem_erase_iff]
  by_cases hx : x = c
  · subst hx
    simp [hc]
  · simp [hx]

theorem insert_union_toFinset_erase' {p : List ℕ} {c0 : ℕ} (hnd : p.Nodup)
    (hc : c0 ∈ p) (C : Finset ℕ) :
    insert c0 C ∪ (p.erase c0).toFinset = C ∪ p.toFinset :=
  insert_union_toFinset_erase hnd hc C

theorem erase_subset_of_subset_union {R S : Finset ℕ} {c : ℕ}
    (h : R ⊆ S ∪ {c}) : R.erase c ⊆ S := by
  intro x hx
  rcases Finset.mem_erase.mp hx with ⟨hxc, hxR⟩
  rcases Finset.mem_union.mp (h hxR) with hxS | hxc'
  · exact hxS
  · exact absurd (Finset.mem_singleton.mp hxc') hxc

/-- First-ness of the culprit scan: any cert position bounds the scan result. -/
theorem fcs_cert_mem {f : Finset ℕ → Bool} {C : Finset ℕ} {l p r : List ℕ}
    {c0 c : ℕ} (hC : f C = false)
    (hspec : first_culprit_spec f C l = some c0) (hl : l = p ++ c :: r)
    (hpc : f (C ∪ p.toFinset ∪ {c}) = true) : c0 ∈ p ∨ c0 = c := by
  subst hl
  have h2 : p ++ c :: r = (p ++ [c]) ++ r := by simp
  have hT : f (C ∪ (p ++ [c]).toFinset) = true := by
    have : (p ++ [c]).toFinset = p.toFinset ∪ {c} := by
      simp [List.toFinset_append]
    rw [this, ← Finset.union_assoc]
    exact hpc
  have hmem : c0 ∈ p ++ [c] := fcs_some_mem_front hC (h2 ▸ hspec) hT
  simpa using hmem

theorem nodup_middle_not_mem {p r : List ℕ} {c : ℕ}
    (h : (p ++ c :: r).Nodup) : c ∉ p := by
  rcases List.nodup_append.mp h with ⟨_, _, hdisj⟩
  intro hc
  exact hdisj hc (List.mem_cons_self c r)

theorem toFinset_subset_of_append {p2 r2 : List ℕ} {c2 : ℕ} :
    p2.toFinset ⊆ (p2 ++ c2 :: r2).toFinset := by
  intro y hy
  simp only [List.mem_toFinset, List.mem_append] at *
  exact Or.inl hy

theorem union3_subset_helper {C P Q : Finset ℕ} {c0 c2 : ℕ}
    (hP : P ⊆ Q) (hc2 : c2 ∈ Q) :
    insert c0 C ∪ P ∪ {c2} ⊆ C ∪ Q ∪ {c0} := by
  intro y hy
  simp only [Finset.mem_union, Finset.mem_insert, Finset.mem_singleton] at hy ⊢
  rcases hy with ((rfl | hyC) | hyP) | rfl
  · tauto
  · tauto
  · exact Or.inl (Or.inr (hP hyP))
  · exact Or.inl (Or.inr hc2)

theorem smart_additive_loop_eq_of_none {orc : Oracle σ} {s s1 : σ}
    {C : Finset ℕ} {l : List ℕ}
    (h1 : find_next_conflict_element_optimized orc s C l = (none, s1)) :
    smart_additive_loop orc s C l = (C, s1) := by
  rw [smart_additive_loop]
  split
  · rename_i s1' heq
    rw [h1] at heq
    injection heq with ha hb
    subst hb
    rfl
  · rename_i ne s1' heq
    rw [h1] at heq
    injection heq with ha hb
    exact absurd ha (by simp)

theorem smart_additive_loop_eq_of_some {orc : Oracle σ} {s s1 : σ}
    {C : Finset ℕ} {l : List ℕ} {c0 : ℕ}
    (h1 : find_next_conflict_element_optimized orc s C l = (some c0, s1)) :
    smart_additive_loop orc s C l =
      match orc s1 (insert c0 C) with
      | (true, s2) => (insert c0 C, s2)
      | (false, s2) => smart_additive_loop orc s2 (insert c0 C) (l.erase c0) := by
  rw [smart_additive_loop]
  split
  · rename_i s1' heq
    rw [h1] at heq
    injection heq with ha hb
    exact absurd ha (by simp)
  · rename_i ne s1' heq
    rw [h1] at heq
    injection heq with ha hb
    injection ha with ha
    subst ha
    subst hb
    rfl

/-- The invariant of the IMCS loop, proved by peeling: starting from a
conflict set `C` not yet failing and a candidate list whose union with `C`
fails, the loop returns a failing superset of `C` inside `C ∪ l`; each element
added beyond `C` is critical (removing it makes the verdict good), and the
whole result stays inside any certificate prefix of the scan. -/
theorem smart_additive_loop_spec {orc : Oracle σ} {f : Finset ℕ → Bool}
    {Good : σ → Prop} (hF : Faithful orc f Good) (hm : MonotoneOracle f) :
    ∀ (n : ℕ) {l : List ℕ} {C : Finset ℕ} {s : σ}, l.length ≤ n → Good s →
      l.Sorted (· ≤ ·) → l.Nodup → (∀ x ∈ l, x ∉ C) →
      f C = false → f (C ∪ l.toFinset) = true →
      ∃ R s', smart_additive_loop orc s C l = (R, s') ∧ Good s' ∧
        C ⊆ R ∧ R ⊆ C ∪ l.toFinset ∧ f R = true ∧
        (∀ x ∈ R, x ∉ C → f (R.erase x) = false) ∧
        (∀ p c r, l = p ++ c :: r → f (C ∪ p.toFinset) = false →
          f (C ∪ p.toFinset ∪ {c}) = true → R ⊆ C ∪ p.toFinset ∪ {c}) := by
  intro n
  induction n with
  | zero =>
    intro l C s hlen hs hsort hnd hdisj hC hT
    have hl : l = [] := List.length_eq_zero.mp (Nat.le_zero.mp hlen)
    subst hl
    simp only [List.toFinset_nil, Finset.union_empty] at hT
    rw [hC] at hT
    exact absurd hT (by simp)
  | succ n ihn =>
    intro l C s hlen hs hsort hnd hdisj hC hT
    obtain ⟨c0, p0, r0, hspec, hl0, hp0, hp0c⟩ := by
      have := fcs_stops_within hC hT []
      rwa [List.append_nil] at this
    rcases hfncall : find_next_conflict_element_optimized orc s C l with ⟨ores, s1⟩
    have hfn := find_next_conflict_element_optimized_spec hF hm C l hs
    rw [hfncall, hsort.insertionSort_eq, hspec] at hfn
    have hores : ores = some c0 := hfn.1
    have hgood1 : Good s1 := hfn.2
    subst hores
    have hc0l : c0 ∈ l := by rw [hl0]; simp
    have hc0C : c0 ∉ C := hdisj c0 hc0l
    have hc0p0 : c0 ∉ p0 := nodup_middle_not_mem (hl0 ▸ hnd)
    rcases horc2 : orc s1 (insert c0 C) with ⟨verdict, s2⟩
    have hfact2 := hF s1 (insert c0 C) hgood1
    rw [horc2] at hfact2
    have hv : verdict = f (insert c0 C) := hfact2.1
    have hgood2 : Good s2 := hfact2.2
    rcases verdict with _ | _
    · -- the verdict on the grown conflict set is GOOD: continue the loop
      have hC' : f (insert c0 C) = false := hv.symm
      have hunion : insert c0 C ∪ (l.erase c0).toFinset = C ∪ l.toFinset :=
        insert_union_toFinset_erase hnd hc0l C
      have hT' : f (insert c0 C ∪ (l.erase c0).toFinset) = true := by
        rw [hunion]
        exact hT
      have hlen' : (l.erase c0).length ≤ n := by
        have h1 := List.length_erase_of_mem hc0l
        have h2 : 0 < l.length := List.length_pos.mpr (List.ne_nil_of_mem hc0l)
        omega
      have hsort' : (l.erase c0).Sorted (· ≤ ·) :=
        List.Pairwise.sublist (List.erase_sublist c0 l) hsort
      have hnd' : (l.erase c0).Nodup := hnd.erase c0
      have hdisj' : ∀ x ∈ l.erase c0, x ∉ insert c0 C := by
        intro x hx
        rcases (List.Nodup.mem_erase_iff hnd).mp hx with ⟨hxc, hxl⟩
        simp only [Finset.mem_insert]
        push_neg
        exact ⟨hxc, hdisj x hxl⟩
      obtain ⟨R, s', hloop, hgood', hCR, hRC, hfR, hmin, huniv⟩ :=
        ihn hlen' hgood2 hsort' hnd' hdisj' hC' hT'
      refine ⟨R, s', ?_, hgood', (Finset.subset_insert c0 C).trans hCR, ?_, hfR, ?_, ?_⟩
      · rw [smart_additive_loop_eq_of_some hfncall]
        simp only [horc2]
        exact hloop
      · rw [← hunion]
        exact hRC
      · intro x hxR hxC
        by_cases hxc0 : x = c0
        · subst hxc0
          have herase0 : l.erase x = p0 ++ r0 := by
            rw [hl0, List.erase_append_right _ hc0p0, List.erase_cons_head]
          have hT2 : f (insert x C ∪ p0.toFinset) = true := by
            rw [insert_union_eq]
            exact hp0c
          obtain ⟨c2, p2, r2, _, hp0eq, hp2, hp2c⟩ := fcs_stops_within hC' hT2 r0
          have hdec : l.erase x = p2 ++ c2 :: (r2 ++ r0) := by
            rw [herase0, hp0eq]
            simp
          have hcont : R ⊆ insert x C ∪ p2.toFinset ∪ {c2} :=
            huniv p2 c2 (r2 ++ r0) hdec hp2 hp2c
          have hsub2 : insert x C ∪ p2.toFinset ∪ {c2} ⊆ C ∪ p0.toFinset ∪ {x} :=
            union3_subset_helper (hp0eq ▸ toFinset_subset_of_append)
              (by rw [hp0eq]; simp)
          have hRe : R.erase x ⊆ C ∪ p0.toFinset :=
            erase_subset_of_subset_union (hcont.trans hsub2)
          exact monotone_false hm hRe hp0
        · exact hmin x hxR (by simp [hxc0, hxC])
      · intro p c r hlpc hpf hpcT
        have hndp : p.Nodup := (List.nodup_append.mp (hlpc ▸ hnd)).1
        rcases fcs_cert_mem hC hspec hlpc hpcT with hc0p | hc0c
        · -- the found culprit lies inside the certificate prefix
          have herase : l.erase c0 = p.erase c0 ++ c :: r := by
            rw [hlpc, List.erase_append_left _ hc0p]
          have hkey : insert c0 C ∪ (p.erase c0).toFinset = C ∪ p.toFinset :=
            insert_union_toFinset_erase hndp hc0p C
          have hpf' : f (insert c0 C ∪ (p.erase c0).toFinset) = false := by
            rw [hkey]
            exact hpf
          have hpcT' : f (insert c0 C ∪ (p.erase c0).toFinset ∪ {c}) = true := by
            rw [hkey]
            exact hpcT
          have := huniv (p.erase c0) c r herase hpf' hpcT'
          rwa [hkey] at this
        · -- the found culprit is the certificate element itself
          subst hc0c
          have hcnp : c0 ∉ p := nodup_middle_not_mem (hlpc ▸ hnd)
          have herase : l.erase c0 = p ++ r := by
            rw [hlpc, List.erase_append_right _ hcnp, List.erase_cons_head]
          have hT3 : f (insert c0 C ∪ p.toFinset) = true := by
            rw [insert_union_eq]
            exact hpcT
          obtain ⟨c3, p3, r3, _, hpeq, hp3, hp3c⟩ := fcs_stops_within hC' hT3 r
          have hdec3 : l.erase c0 = p3 ++ c3 :: (r3 ++ r) := by
            rw [herase, hpeq]
            simp
          have hcont := huniv p3 c3 (r3 ++ r) hdec3 hp3 hp3c
          exact hcont.trans (union3_subset_helper (hpeq ▸ toFinset_subset_of_append)
            (by rw [hpeq]; simp))
    · -- the verdict on the grown conflict set is FAIL: early termination
      have hfC' : f (insert c0 C) = true := hv.symm
      refine ⟨insert c0 C, s2, ?_, hgood2, Finset.subset_insert c0 C, ?_, hfC', ?_, ?_⟩
      · rw [smart_additive_loop_eq_of_some hfncall]
        simp only [horc2]
      · intro y hy
        rcases Finset.mem_insert.mp hy with rfl | hyC
        · exact Finset.mem_union_right _ (List.mem_toFinset.mpr hc0l)
        · exact Finset.mem_union_left _ hyC
      · intro x hxR hxC
        have hxc0 : x = c0 := by
          rcases Finset.mem_insert.mp hxR with h | h
          · exact h
          · exact absurd h hxC
        subst hxc0
        rw [Finset.erase_insert hxC]
        exact hC
      · intro p c r hlpc hpf hpcT
        rcases fcs_cert_mem hC hspec hlpc hpcT with hc0p | hc0c
        · intro y hy
          rcases Finset.mem_insert.mp hy with rfl | hyC
          · exact Finset.mem_union_left _
              (Finset.mem_union_right _ (List.mem_toFinset.mpr hc0p))
          · exact Finset.mem_union_left _ (Finset.mem_union_left _ hyC)
        · subst hc0c
          intro y hy
          rcases Finset.mem_insert.mp hy with rfl | hyC
          · exact Finset.mem_union_right _ (Finset.mem_singleton_self y)
          · exact Finset.mem_union_left _ (Finset.mem_union_left _ hyC)

theorem additive_search_loop_eq_of_true {orc : Oracle σ} {s s1 : σ}
    {C : Finset ℕ} {l : List ℕ} (h : orc s C = (true, s1)) :
    additive_search_loop orc s C l = (Except.ok C, s1) := by
  rw [additive_search_loop]
  simp only [h]

theorem additive_search_loop_eq_of_false {orc : Oracle σ} {s s1 : σ}
    {C : Finset ℕ} {l : List ℕ} {res} (h : orc s C = (false, s1))
    (h2 : find_one_culprit_recursive orc s1 C l = res) :
    additive_search_loop orc s C l =
      match res with
      | (some c0, s2) => additive_search_loop orc s2 (insert c0 C) (l.erase c0)
      | (none, s2) =>
        (Except.error "Additive search failed to find the next culprit.", s2) := by
  rw [additive_search_loop]
  simp only [h]
  split
  · rename_i c0 s2 heq
    have hres : res = (some c0, s2) := h2.symm.trans heq
    subst hres
    rfl
  · rename_i s2 heq
    have hres : res = (none, s2) := h2.symm.trans heq
    subst hres
    rfl

/-- The invariant of the additive loop (`find_conflicts_additive`), by the same
peeling argument as the IMCS loop; under a faithful, monotone oracle whose
verdict fails on `C ∪ l` the `RuntimeError` branch is never taken. -/
theorem additive_search_loop_spec {orc : Oracle σ} {f : Finset ℕ → Bool}
    {Good : σ → Prop} (hF : Faithful orc f Good) (hm : MonotoneOracle f) :
    ∀ (n : ℕ) {l : List ℕ} {C : Finset ℕ} {s : σ}, l.length ≤ n → Good s →
      l.Nodup → (∀ x ∈ l, x ∉ C) →
      f (C ∪ l.toFinset) = true →
      ∃ R s', additive_search_loop orc s C l = (Except.ok R, s') ∧ Good s' ∧
        C ⊆ R ∧ R ⊆ C ∪ l.toFinset ∧ f R = true ∧
        (∀ x ∈ R, x ∉ C → f (R.erase x) = false) ∧
        (∀ p c r, l = p ++ c :: r → f (C ∪ p.toFinset) = false →
          f (C ∪ p.toFinset ∪ {c}) = true → R ⊆ C ∪ p.toFinset ∪ {c}) := by
  intro n
  induction n with
  | zero =>
    intro l C s hlen hs hnd hdisj hT
    have hl : l = [] := List.length_eq_zero.mp (Nat.le_zero.mp hlen)
    subst hl
    simp only [List.toFinset_nil, Finset.union_empty] at hT
    rcases horc : orc s C with ⟨verdict, s1⟩
    have hfact := hF s C hs
    rw [horc] at hfact
    have hv : verdict = f C := hfact.1
    rw [hT] at hv
    subst hv
    refine ⟨C, s1, additive_search_loop_eq_of_true horc, hfact.2, le_refl C, ?_, hT, ?_, ?_⟩
    · simp
    · intro x _ hxC
      exact absurd (by assumption) hxC
    · intro p c r hpcr
      simp at hpcr
  | succ n ihn =>
    intro l C s hlen hs hnd hdisj hT
    rcases horc : orc s C with ⟨verdict, s1⟩
    have hfact := hF s C hs
    rw [horc] at hfact
    have hv : verdict = f C := hfact.1
    have hgood1 : Good s1 := hfact.2
    rcases verdict with _ | _
    · -- confirmed culprits do not fail yet: search for the next culprit
      have hC : f C = false := hv.symm
      obtain ⟨c0, p0, r0, hspec, hl0, hp0, hp0c⟩ := by
        have := fcs_stops_within hC hT []
        rwa [List.append_nil] at this
      rcases hfo : find_one_culprit_recursive orc s1 C l with ⟨ores, s2⟩
      have hfoq := find_one_culprit_recursive_spec hF hm C l hgood1
      rw [hfo, hspec] at hfoq
      have hores : ores = some c0 := hfoq.1
      have hgood2 : Good s2 := hfoq.2
      subst hores
      have hc0l : c0 ∈ l := by rw [hl0]; simp
      have hc0C : c0 ∉ C := hdisj c0 hc0l
      have hc0p0 : c0 ∉ p0 := nodup_middle_not_mem (hl0 ▸ hnd)
      have hstep := additive_search_loop_eq_of_false horc hfo
      have hunion : insert c0 C ∪ (l.erase c0).toFinset = C ∪ l.toFinset :=
        insert_union_toFinset_erase hnd hc0l C
      have hT' : f (insert c0 C ∪ (l.erase c0).toFinset) = true := by
        rw [hunion]
        exact hT
      have hlen' : (l.erase c0).length ≤ n := by
        have h1 := List.length_erase_of_mem hc0l
        have h2 : 0 < l.length := List.length_pos.mpr (List.ne_nil_of_mem hc0l)
        omega
      have hnd' : (l.erase c0).Nodup := hnd.erase c0
      have hdisj' : ∀ x ∈ l.erase c0, x ∉ insert c0 C := by
        intro x hx
        rcases (List.Nodup.mem_erase_iff hnd).mp hx with ⟨hxc, hxl⟩
        simp only [Finset.mem_insert]
        push_neg
        exact ⟨hxc, hdisj x hxl⟩
      obtain ⟨R, s', hloop, hgood', hCR, hRC, hfR, hmin, huniv⟩ :=
        ihn hlen' hgood2 hnd' hdisj' hT'
      refine ⟨R, s', ?_, hgood', (Finset.subset_insert c0 C).trans hCR, ?_, hfR, ?_, ?_⟩
      · rw [hstep]
        exact hloop
      · rw [← hunion]
        exact hRC
      · intro x hxR hxC
        by_cases hxc0 : x = c0
        · subst hxc0
          rcases hfC2 : f (insert x C) with _ | _
          · -- the next loop entry is still GOOD: use the certificate containment
            have herase0 : l.erase x = p0 ++ r0 := by
              rw [hl0, List.erase_append_right _ hc0p0, List.erase_cons_head]
            have hT2 : f (insert x C ∪ p0.toFinset) = true := by
              rw [insert_union_eq]
              exact hp0c
            obtain ⟨c2, p2, r2, _, hp0eq, hp2, hp2c⟩ := fcs_stops_within hfC2 hT2 r0
            have hdec : l.erase x = p2 ++ c2 :: (r2 ++ r0) := by
              rw [herase0, hp0eq]
              simp
            have hcont : R ⊆ insert x C ∪ p2.toFinset ∪ {c2} :=
              huniv p2 c2 (r2 ++ r0) hdec hp2 hp2c
            have hsub2 : insert x C ∪ p2.toFinset ∪ {c2} ⊆ C ∪ p0.toFinset ∪ {x} :=
              union3_subset_helper (hp0eq ▸ toFinset_subset_of_append)
                (by rw [hp0eq]; simp)
            have hRe : R.erase x ⊆ C ∪ p0.toFinset :=
              erase_subset_of_subset_union (hcont.trans hsub2)
            exact monotone_false hm hRe hp0
          · -- the grown set already fails: the loop returned it at once
            rcases horc3 : orc s2 (insert x C) with ⟨v3, s3⟩
            have hfact3 := hF s2 (insert x C) hgood2
            rw [horc3] at hfact3
            have hv3 : v3 = f (insert x C) := hfact3.1
            rw [hfC2] at hv3
            subst hv3
            rw [additive_search_loop_eq_of_true horc3] at hloop
            have hR : R = insert x C := by
              injection hloop with h1 h2
              injection h1 with h1
              exact h1.symm
            subst hR
            rw [Finset.erase_insert hxC]
            exact hC
        · exact hmin x hxR (by simp [hxc0, hxC])
      · intro p c r hlpc hpf hpcT
        have hndp : p.Nodup := (List.nodup_append.mp (hlpc ▸ hnd)).1
        rcases fcs_cert_mem hC hspec hlpc hpcT with hc0p | hc0c
        · have herase : l.erase c0 = p.erase c0 ++ c :: r := by
            rw [hlpc, List.erase_append_left _ hc0p]
          have hkey : insert c0 C ∪ (p.erase c0).toFinset = C ∪ p.toFinset :=
            insert_union_toFinset_erase hndp hc0p C
          have hpf' : f (insert c0 C ∪ (p.erase c0).toFinset) = false := by
            rw [hkey]
            exact hpf
          have hpcT' : f (insert c0 C ∪ (p.erase c0).toFinset ∪ {c}) = true := by
            rw [hkey]
            exact hpcT
          have := huniv (p.erase c0) c r herase hpf' hpcT'
          rwa [hkey] at this
        · subst hc0c
          have hcnp : c0 ∉ p := nodup_middle_not_mem (hlpc ▸ hnd)
          have herase : l.erase c0 = p ++ r := by
            rw [hlpc, List.erase_append_right _ hcnp, List.erase_cons_head]
          rcases hfC2 : f (insert c0 C) with _ | _
          · have hT3 : f (insert c0 C ∪ p.toFinset) = true := by
              rw [insert_union_eq]
              exact hpcT
            obtain ⟨c3, p3, r3, _, hpeq, hp3, hp3c⟩ := fcs_stops_within hfC2 hT3 r
            have hdec3 : l.erase c0 = p3 ++ c3 :: (r3 ++ r) := by
              rw [herase, hpeq]
              simp
            have hcont := huniv p3 c3 (r3 ++ r) hdec3 hp3 hp3c
            exact hcont.trans (union3_subset_helper (hpeq ▸ toFinset_subset_of_append)
              (by rw [hpeq]; simp))
          · rcases horc3 : orc s2 (insert c0 C) with ⟨v3, s3⟩
            have hfact3 := hF s2 (insert c0 C) hgood2
            rw [horc3] at hfact3
            have hv3 : v3 = f (insert c0 C) := hfact3.1
            rw [hfC2] at hv3
            subst hv3
            rw [additive_search_loop_eq_of_true horc3] at hloop
            have hR : R = insert c0 C := by
              injection hloop with h1 h2
              injection h1 with h1
              exact h1.symm
            subst hR
            intro y hy
            rcases Finset.mem_insert.mp hy with rfl | hyC
            · exact Finset.mem_union_right _ (Finset.mem_singleton_self y)
            · exact Finset.mem_union_left _ (Finset.mem_union_left _ hyC)
    · -- the confirmed culprits already fail: the loop returns them
      have hfC : f C = true := hv.symm
      refine ⟨C, s1, additive_search_loop_eq_of_true horc, hgood1, le_refl C,
        Finset.subset_union_left, hfC, ?_, ?_⟩
      · intro x hxC' hxC
        exact absurd hxC' hxC
      · intro p c r _ _ _
        exact Finset.subset_union_left.trans Finset.subset_union_left

/-- `find_conflicts_smart_additive` on a failing universe: returns a failing,
1-minimal subset of the universe (faithful monotone oracle, good empty set). -/
theorem find_conflicts_smart_additive_spec {orc : Oracle σ} {f : Finset ℕ → Bool}
    {Good : σ → Prop} (hF : Faithful orc f Good) (hm : MonotoneOracle f)
    {s : σ} {all_mods : List ℕ} (hs : Good s) (hnd : all_mods.Nodup)
    (hfull : f all_mods.toFinset = true) (hempty : f ∅ = false) :
    ∃ R s', find_conflicts_smart_additive orc s all_mods = (R, s') ∧ Good s' ∧
      R ⊆ all_mods.toFinset ∧ f R = true ∧ ∀ x ∈ R, f (R.erase x) = false := by
  have hperm := List.perm_insertionSort (· ≤ ·) all_mods
  have hsort := List.sorted_insertionSort (· ≤ ·) all_mods
  have hnds : (all_mods.insertionSort (· ≤ ·)).Nodup := hperm.nodup_iff.mpr hnd
  have htf : (all_mods.insertionSort (· ≤ ·)).toFinset = all_mods.toFinset :=
    List.toFinset_eq_of_perm _ _ hperm
  have hT : f ((∅ : Finset ℕ) ∪ (all_mods.insertionSort (· ≤ ·)).toFinset) = true := by
    rw [Finset.empty_union, htf]
    exact hfull
  obtain ⟨R, s', hloop, hgood, _, hRC, hfR, hmin, _⟩ :=
    smart_additive_loop_spec hF hm (all_mods.insertionSort (· ≤ ·)).length
      (le_refl _) hs hsort hnds (by simp) hempty hT
  refine ⟨R, s', hloop, hgood, ?_, hfR, ?_⟩
  · rw [Finset.empty_union, htf] at hRC
    exact hRC
  · intro x hxR
    exact hmin x hxR (Finset.not_mem_empty x)

/-- `find_conflicts_smart_additive` on a clean universe (monotone oracle):
returns the empty set, after one run of the inner additive sub-search. -/
theorem find_conflicts_smart_additive_clean {orc : Oracle σ} {f : Finset ℕ → Bool}
    {Good : σ → Prop} (hF : Faithful orc f Good) (hm : MonotoneOracle f)
    {s : σ} {all_mods : List ℕ} (hs : Good s)
    (hclean : f all_mods.toFinset = false) :
    (find_conflicts_smart_additive orc s all_mods).1 = ∅ := by
  have hperm := List.perm_insertionSort (· ≤ ·) all_mods
  have htf : (all_mods.insertionSort (· ≤ ·)).toFinset = all_mods.toFinset :=
    List.toFinset_eq_of_perm _ _ hperm
  rcases hfn : find_next_conflict_element_optimized orc s ∅
      (all_mods.insertionSort (· ≤ ·)) with ⟨ores, s1⟩
  have hspec := find_next_conflict_element_optimized_spec hF hm
    (∅ : Finset ℕ) (all_mods.insertionSort (· ≤ ·)) hs
  rw [hfn] at hspec
  have hnone : first_culprit_spec f ∅
      ((all_mods.insertionSort (· ≤ ·)).insertionSort (· ≤ ·)) = none := by
    apply fcs_none_of_monotone hm
    have h2 : (List.insertionSort (fun x1 x2 => x1 ≤ x2)
        (all_mods.insertionSort (· ≤ ·))).toFinset = all_mods.toFinset := by
      rw [List.toFinset_eq_of_perm _ _ (List.perm_insertionSort _ _), htf]
    rw [Finset.empty_union, h2]
    exact hclean
  rw [hnone] at hspec
  have hores : ores = none := hspec.1
  subst hores
  rw [find_conflicts_smart_additive, smart_additive_loop_eq_of_none hfn]

/-- `find_conflicts_additive` on a failing universe: succeeds (no
`RuntimeError`) with a failing, 1-minimal subset of the universe. -/
theorem find_conflicts_additive_spec {orc : Oracle σ} {f : Finset ℕ → Bool}
    {Good : σ → Prop} (hF : Faithful orc f Good) (hm : MonotoneOracle f)
    {s : σ} {all_mods : List ℕ} (hs : Good s) (hnd : all_mods.Nodup)
    (hfull : f all_mods.toFinset = true) (hempty : f ∅ = false) :
    ∃ R s', find_conflicts_additive orc s all_mods = (Except.ok R, s') ∧ Good s' ∧
      R ⊆ all_mods.toFinset ∧ f R = true ∧ ∀ x ∈ R, f (R.erase x) = false := by
  rcases horc : orc s all_mods.toFinset with ⟨verdict, s1⟩
  have hfact := hF s all_mods.toFinset hs
  rw [horc] at hfact
  have hv : verdict = f all_mods.toFinset := hfact.1
  rw [hfull] at hv
  subst hv
  have hT : f ((∅ : Finset ℕ) ∪ all_mods.toFinset) = true := by
    rw [Finset.empty_union]
    exact hfull
  obtain ⟨R, s', hloop, hgood, _, hRC, hfR, hmin, _⟩ :=
    additive_search_loop_spec hF hm all_mods.length (le_refl _) hfact.2 hnd
      (by simp) hT
  refine ⟨R, s', ?_, hgood, ?_, hfR, ?_⟩
  · rw [find_conflicts_additive, horc]
    exact hloop
  · rw [Finset.empty_union] at hRC
    exact hRC
  · intro x hxR
    exact hmin x hxR (Finset.not_mem_empty x)

/-- A failing set all of whose elements are critical equals the planted set
when the oracle is the supersets-of-`P` test. -/
theorem planted_exact {P R : Finset ℕ} (hPR : P ⊆ R)
    (hmin : ∀ x ∈ R, ¬ P ⊆ R.erase x) : R = P := by
  by_contra hne
  have hnsub : ¬ R ⊆ P := fun h => hne (Finset.Subset.antisymm h hPR)
  obtain ⟨x, hxR, hxP⟩ := Finset.not_subset.mp hnsub
  exact hmin x hxR (fun y hy =>
    Finset.mem_erase.mpr ⟨fun he => hxP (he ▸ hy), hPR hy⟩)

/-! ## ddmin: partition facts and loop correctness -/

theorem enumFrom_filter_eq (i : ℕ) :
    ∀ (n : ℕ) (l : List ℕ), n ≤ i → i < n + l.length →
      (List.enumFrom n l).filter (fun q => q.1 = i) = [(i, l.getD (i - n) 0)] := by
  intro n l
  induction l generalizing n with
  | nil =>
    intro h1 h2
    simp at h2
    omega
  | cons a t ih =>
    intro h1 h2
    rw [List.enumFrom_cons, List.filter_cons]
    by_cases hni : n = i
    · subst hni
      simp only [decide_eq_true_eq]
      rw [if_pos trivial]
      have htail : (List.enumFrom (n + 1) t).filter (fun q => q.1 = n) = [] := by
        rw [List.filter_eq_nil_iff]
        rintro ⟨j, v⟩ hq
        have := List.mem_enumFrom hq
        simp only [decide_eq_true_eq]
        omega
      rw [htail]
      simp
    · simp only [decide_eq_true_eq]
      rw [if_neg hni]
      have h3 : n + 1 ≤ i := by omega
      have h4 : i < n + 1 + t.length := by
        simp only [List.length_cons] at h2
        omega
      rw [ih (n + 1) h3 h4]
      have : i - n = (i - (n + 1)) + 1 := by omega
      rw [this, List.getD_cons_succ]

/-- When the granularity reaches the list length, each round-robin partition is
the corresponding singleton. -/
theorem partition_slice_singleton {l : List ℕ} {i g : ℕ} (hg : l.length ≤ g)
    (hi : i < l.length) : partition_slice l i g = [l.getD i 0] := by
  rw [partition_slice]
  have hcongr : (l.enum.filter (fun q => q.1 % g = i)) =
      (l.enum.filter (fun q => q.1 = i)) := by
    apply List.filter_congr
    rintro ⟨j, v⟩ hq
    have hmem := List.mem_enumFrom (show (j, v) ∈ List.enumFrom 0 l from hq)
    have hlt : j < l.length := by omega
    have hmod : j % g = j := Nat.mod_eq_of_lt (by omega)
    simp [hmod]
  rw [hcongr]
  rw [show l.enum = l.enumFrom 0 from rfl]
  rw [enumFrom_filter_eq i 0 l (by omega) (by simp; omega)]
  simp

/-- Filtering out one element computes the `Finset` erase. -/
theorem filter_not_mem_singleton_toFinset (test_set : List ℕ) (x : ℕ) :
    (test_set.filter (fun y => y ∉ [x])).toFinset = test_set.toFinset.erase x := by
  ext z
  simp only [List.mem_toFinset, List.mem_filter, Finset.mem_erase,
    List.mem_singleton, decide_not, Bool.not_eq_eq_eq_not, Bool.not_true,
    decide_eq_false_iff_not]
  tauto

/-- The ddmin partition scan: preserves the state invariant; a `none` result
means every nonempty partition has a good complement; a `some` result is a
failing complement of some partition. -/
theorem ddmin_scan_spec {orc : Oracle σ} {f : Finset ℕ → Bool} {Good : σ → Prop}
    (hF : Faithful orc f Good) {test_set mods_list : List ℕ} {g : ℕ} :
    ∀ (is : List ℕ) {s : σ}, Good s →
      Good (ddmin_scan orc s test_set mods_list g is).2 ∧
      ((ddmin_scan orc s test_set mods_list g is).1 = none →
        ∀ i ∈ is, partition_slice mods_list i g ≠ [] →
          f (test_set.filter
            (fun x => x ∉ partition_slice mods_list i g)).toFinset = false) ∧
      (∀ comp, (ddmin_scan orc s test_set mods_list g is).1 = some comp →
        f comp.toFinset = true ∧
        ∃ i ∈ is, comp = test_set.filter
          (fun x => x ∉ partition_slice mods_list i g)) := by
  intro is
  induction is with
  | nil =>
    intro s hs
    refine ⟨hs, ?_, ?_⟩
    · intro _ i hi
      simp at hi
    · intro comp hcomp
      simp [ddmin_scan] at hcomp
  | cons i is ih =>
    intro s hs
    rw [ddmin_scan]
    split
    · rename_i hp
      rcases ih hs with ⟨ih1, ih2, ih3⟩
      refine ⟨ih1, ?_, ?_⟩
      · intro hnone j hj hjne
        rcases List.mem_cons.mp hj with rfl | hj2
        · exact absurd hp hjne
        · exact ih2 hnone j hj2 hjne
      · intro comp hcomp
        rcases ih3 comp hcomp with ⟨hT, j, hj, hce⟩
        exact ⟨hT, j, List.mem_cons_of_mem i hj, hce⟩
    · rename_i hp
      rcases horc : orc s (test_set.filter
          (fun x => x ∉ partition_slice mods_list i g)).toFinset with ⟨verdict, s'⟩
      have hfact := hF s (test_set.filter
        (fun x => x ∉ partition_slice mods_list i g)).toFinset hs
      rw [horc] at hfact
      rcases verdict with _ | _
      · simp only [horc]
        rcases ih hfact.2 with ⟨ih1, ih2, ih3⟩
        refine ⟨ih1, ?_, ?_⟩
        · intro hnone j hj hjne
          rcases List.mem_cons.mp hj with rfl | hj2
          · exact hfact.1.symm
          · exact ih2 hnone j hj2 hjne
        · intro comp hcomp
          rcases ih3 comp hcomp with ⟨hT, j, hj, hce⟩
          exact ⟨hT, j, List.mem_cons_of_mem i hj, hce⟩
      · simp only [horc]
        refine ⟨hfact.2, ?_, ?_⟩
        · intro hnone
          simp at hnone
        · intro comp hcomp
          have : comp = test_set.filter
              (fun x => x ∉ partition_slice mods_list i g) :=
            (Option.some.inj hcomp).symm
          subst this
          exact ⟨hfact.1.symm, i, List.mem_cons_self i is, rfl⟩

theorem ddmin_loop_eq_small {orc : Oracle σ} {s : σ} {l : List ℕ} {g : ℕ}
    (hg : 0 < g) (h : l.length < 2) : ddmin_loop orc s l g hg = (l, s) := by
  rw [ddmin_loop]
  rw [dif_pos h]

theorem ddmin_loop_eq_some {orc : Oracle σ} {s s1 : σ} {l comp : List ℕ}
    {g : ℕ} (hg : 0 < g) (hg2 : (0:ℕ) < 2) (h2 : ¬ l.length < 2)
    (hscan : ddmin_scan orc s l (l.insertionSort (· ≤ ·)) g (List.range g)
      = (some comp, s1)) :
    ddmin_loop orc s l g hg = ddmin_loop orc s1 comp 2 hg2 := by
  rw [ddmin_loop]
  rw [dif_neg h2]
  simp only []
  rw [hscan]

theorem ddmin_loop_eq_none {orc : Oracle σ} {s s1 : σ} {l : List ℕ}
    {g : ℕ} (hg : 0 < g) (hgm : (0:ℕ) < min l.length (g * 2))
    (h2 : ¬ l.length < 2)
    (hscan : ddmin_scan orc s l (l.insertionSort (· ≤ ·)) g (List.range g)
      = (none, s1)) :
    ddmin_loop orc s l g hg =
      if g < l.length then
        ddmin_loop orc s1 l (min l.length (g * 2)) hgm
      else (l, s1) := by
  rw [ddmin_loop]
  rw [dif_neg h2]
  simp only []
  rw [hscan]
  split
  · rename_i c sx hbad
    exact absurd hbad (by simp)
  · rename_i sx heq2
    injection heq2 with hB hC
    subst hC
    split
    · rfl
    · rfl

/-- The ddmin loop: from a failing working set it returns a failing subset,
and when it stops the result is 1-minimal (the final no-progress pass with
granularity equal to the set size tests exactly the one-element removals). -/
theorem ddmin_loop_spec {orc : Oracle σ} {f : Finset ℕ → Bool} {Good : σ → Prop}
    (hF : Faithful orc f Good) (hm : MonotoneOracle f) (hempty : f ∅ = false) :
    ∀ (n1 n2 : ℕ) (l : List ℕ) (g : ℕ) (s : σ) (hg : 0 < g),
      l.length ≤ n1 → l.length - g < n2 → Good s → l.Nodup →
      f l.toFinset = true → 2 ≤ g → (g ≤ l.length ∨ l.length < 2) →
      ∃ R s', ddmin_loop orc s l g hg = (R, s') ∧ Good s' ∧ R.Nodup ∧
        (∀ x ∈ R, x ∈ l) ∧ f R.toFinset = true ∧
        (∀ x ∈ R.toFinset, f (R.toFinset.erase x) = false) := by
  have hbody : ∀ (n1 n2 : ℕ),
      (∀ (m2 : ℕ) (l : List ℕ) (g : ℕ) (s : σ) (hg : 0 < g),
        l.length ≤ n1 → l.length - g < m2 → Good s → l.Nodup →
        f l.toFinset = true → 2 ≤ g → (g ≤ l.length ∨ l.length < 2) →
        ∃ R s', ddmin_loop orc s l g hg = (R, s') ∧ Good s' ∧ R.Nodup ∧
          (∀ x ∈ R, x ∈ l) ∧ f R.toFinset = true ∧
          (∀ x ∈ R.toFinset, f (R.toFinset.erase x) = false)) →
      (∀ (l : List ℕ) (g : ℕ) (s : σ) (hg : 0 < g),
        l.length ≤ n1 + 1 → l.length - g < n2 → Good s → l.Nodup →
        f l.toFinset = true → 2 ≤ g → (g ≤ l.length ∨ l.length < 2) →
        ∃ R s', ddmin_loop orc s l g hg = (R, s') ∧ Good s' ∧ R.Nodup ∧
          (∀ x ∈ R, x ∈ l) ∧ f R.toFinset = true ∧
          (∀ x ∈ R.toFinset, f (R.toFinset.erase x) = false)) →
      ∀ (l : List ℕ) (g : ℕ) (s : σ) (hg : 0 < g),
        l.length ≤ n1 + 1 → l.length - g < n2 + 1 → Good s → l.Nodup →
        f l.toFinset = true → 2 ≤ g → (g ≤ l.length ∨ l.length < 2) →
        ∃ R s', ddmin_loop orc s l g hg = (R, s') ∧ Good s' ∧ R.Nodup ∧
          (∀ x ∈ R, x ∈ l) ∧ f R.toFinset = true ∧
          (∀ x ∈ R.toFinset, f (R.toFinset.erase x) = false) := by
    intro n1 n2 ih1 ih2 l g s hg hlen hfuel hs hnd hfT h2g hgle
    by_cases hsmall : l.length < 2
    · -- working set of size at most one: return it
      refine ⟨l, s, ddmin_loop_eq_small hg hsmall, hs, hnd, fun x hx => hx, hfT, ?_⟩
      rcases l with _ | ⟨x, t⟩
      · simp only [List.toFinset_nil] at hfT
        rw [hfT] at hempty
        exact absurd hempty (by simp)
      · rcases t with _ | ⟨y, t2⟩
        · intro z hz
          simp only [List.toFinset_cons, List.toFinset_nil] at hz ⊢
          have hzx : z = x := by simpa using hz
          subst hzx
          simpa using hempty
        · exact absurd hsmall (by simp)
    · have hml : ∀ x ∈ l.insertionSort (· ≤ ·), x ∈ l :=
        fun x hx => (List.mem_insertionSort _).mp hx
      rcases hscan : ddmin_scan orc s l (l.insertionSort (· ≤ ·)) g
          (List.range g) with ⟨res, s1⟩
      rcases ddmin_scan_spec hF (List.range g) hs with ⟨hgood1, hnone, hsome⟩
      rw [hscan] at hgood1 hnone hsome
      rcases res with _ | comp
      · -- no partition removal preserves failure
        by_cases hglt : g < l.length
        · -- double the granularity and retry
          have hgle2 : min l.length (g * 2) ≤ l.length := min_le_left _ _
          obtain ⟨R, s', hloop, hgood', hnd', hsub', hfR', hmin'⟩ :=
            ih2 l (min l.length (g * 2)) s1 (by omega)
              hlen (by omega) hgood1 hnd hfT (by omega) (Or.inl hgle2)
          refine ⟨R, s', ?_, hgood', hnd', hsub', hfR', hmin'⟩
          rw [ddmin_loop_eq_none hg (by omega) hsmall hscan]
          simp only [if_pos hglt]
          exact hloop
        · -- granularity saturated: every one-element removal is good
          have hgeq : g = l.length := by omega
          refine ⟨l, s1, ?_, hgood1, hnd, fun x hx => hx, hfT, ?_⟩
          · rw [ddmin_loop_eq_none hg (by omega) hsmall hscan]
            simp only [if_neg hglt]
          · intro x hx
            have hxl : x ∈ l := List.mem_toFinset.mp hx
            have hxsort : x ∈ l.insertionSort (· ≤ ·) :=
              (List.mem_insertionSort _).mpr hxl
            obtain ⟨i, hi, hix⟩ := List.getElem_of_mem hxsort
            have hlensort : (l.insertionSort (· ≤ ·)).length = l.length :=
              List.length_insertionSort _ _
            have hslice : partition_slice (l.insertionSort (· ≤ ·)) i g = [x] := by
              rw [partition_slice_singleton (by omega) hi]
              rw [List.getD_eq_getElem _ _ hi, hix]
            have hcompl := hnone rfl i (by
              rw [List.mem_range]
              omega) (by rw [hslice]; simp)
            rw [hslice, filter_not_mem_singleton_toFinset] at hcompl
            exact hcompl
      · -- a partition removal keeps the failure: restart with the complement
        obtain ⟨hcompT, j, _, hcompeq⟩ := hsome comp rfl
        have hcomplen : comp.length < l.length :=
          ddmin_scan_some_length hml (by rw [hscan])
        have hcompnd : comp.Nodup := by
          rw [hcompeq]
          exact hnd.filter _
        have hcompsub : ∀ x ∈ comp, x ∈ l := by
          intro x hx
          rw [hcompeq] at hx
          exact List.mem_of_mem_filter hx
        obtain ⟨R, s', hloop, hgood', hnd', hsub', hfR', hmin'⟩ :=
          ih1 (comp.length - 2 + 1) comp 2 s1 (by omega)
            (by omega) (by omega) hgood1 hcompnd hcompT (le_refl 2)
            (by omega)
        refine ⟨R, s', ?_, hgood', hnd', fun x hx => hcompsub x (hsub' x hx),
          hfR', hmin'⟩
        rw [ddmin_loop_eq_some hg (by omega) hsmall hscan]
        exact hloop
  intro n1
  induction n1 with
  | zero =>
    intro n2 l g s hg hlen hfuel hs hnd hfT h2g hgle
    have hl : l = [] := List.length_eq_zero.mp (Nat.le_zero.mp hlen)
    subst hl
    simp only [List.toFinset_nil] at hfT
    rw [hfT] at hempty
    exact absurd hempty (by simp)
  | succ n1 ih1 =>
    intro n2
    induction n2 with
    | zero =>
      intro l g s hg hlen hfuel hs hnd hfT h2g hgle
      exact absurd hfuel (by omega)
    | succ n2 ih2 =>
      intro l g s hg hlen hfuel hs hnd hfT h2g hgle
      exact hbody n1 n2 (fun m2 => ih1 m2) ih2 l g s hg hlen hfuel hs hnd hfT
        h2g hgle

/-- `find_conflicts_subtractive_ddmin`: under a faithful monotone oracle with
no failure on the empty set, the result is a failing subset of the input that
is 1-minimal, and on a clean input the result is empty. -/
theorem find_conflicts_subtractive_ddmin_spec {orc : Oracle σ}
    {f : Finset ℕ → Bool} {Good : σ → Prop} (hF : Faithful orc f Good)
    (hm : MonotoneOracle f) (hempty : f ∅ = false) {s : σ} (all_mods : List ℕ)
    (hs : Good s) (hnd : all_mods.Nodup) :
    ∃ R s', find_conflicts_subtractive_ddmin orc s all_mods = (R, s') ∧
      Good s' ∧ R ⊆ all_mods.toFinset ∧
      (f all_mods.toFinset = true → f R = true) ∧
      (f all_mods.toFinset = false → R = ∅) ∧
      (∀ x ∈ R, f (R.erase x) = false) := by
  rcases horc : orc s all_mods.toFinset with ⟨verdict, s1⟩
  have hfact := hF s all_mods.toFinset hs
  rw [horc] at hfact
  rcases verdict with _ | _
  · refine ⟨∅, s1, ?_, hfact.2, by simp, ?_, fun _ => rfl, by simp⟩
    · rw [find_conflicts_subtractive_ddmin, horc]
    · intro hT
      rw [hT] at hfact
      exact absurd hfact.1 (by simp)
  · have hT : f all_mods.toFinset = true := hfact.1.symm
    obtain ⟨R, s2, hloop, hgood2, hndR, hsubR, hfR, hminR⟩ :=
      ddmin_loop_spec hF hm hempty (all_mods.length) (all_mods.length + 1)
        all_mods 2 s1 (by omega) (le_refl _) (by omega) hfact.2 hnd hT
        (le_refl 2) (by omega)
    refine ⟨R.toFinset, s2, ?_, hgood2, ?_, fun _ => hfR, ?_, hminR⟩
    · rw [find_conflicts_subtractive_ddmin, horc]
      simp only [hloop]
    · intro x hx
      exact List.mem_toFinset.mpr (hsubR x (List.mem_toFinset.mp hx))
    · intro hfalse
      rw [hT] at hfalse
      exact absurd hfalse (by simp)

/-! ## Correctness of QuickXplain -/

theorem quickxplain_eq_nil {orc : Oracle σ} {s : σ} {B : Finset ℕ} :
    quickxplain_recursive orc s B [] = (∅, s) := by
  rw [quickxplain_recursive]
  rw [dif_pos rfl]

theorem quickxplain_eq_true {orc : Oracle σ} {s s1 : σ} {B : Finset ℕ}
    {cand : List ℕ} (hc : ¬ cand = []) (horc : orc s B = (true, s1)) :
    quickxplain_recursive orc s B cand = (∅, s1) := by
  rw [quickxplain_recursive]
  rw [dif_neg hc]
  simp only [horc]

theorem quickxplain_eq_one {orc : Oracle σ} {s s1 : σ} {B : Finset ℕ}
    {cand : List ℕ} (hc : ¬ cand = []) (horc : orc s B = (false, s1))
    (hl : cand.length = 1) :
    quickxplain_recursive orc s B cand = (cand.toFinset, s1) := by
  rw [quickxplain_recursive]
  rw [dif_neg hc]
  simp only [horc]
  rw [dif_pos hl]

theorem quickxplain_eq_split {orc : Oracle σ} {s s1 s2 s3 : σ} {B : Finset ℕ}
    {cand : List ℕ} {cs1 cs2 : Finset ℕ} (hc : ¬ cand = [])
    (horc : orc s B = (false, s1)) (hl : ¬ cand.length = 1)
    (h2 : quickxplain_recursive orc s1
      (B ∪ (cand.take (cand.length / 2)).toFinset)
      (cand.drop (cand.length / 2)) = (cs2, s2))
    (h1 : quickxplain_recursive orc s2 (B ∪ cs2)
      (cand.take (cand.length / 2)) = (cs1, s3)) :
    quickxplain_recursive orc s B cand = (cs1 ∪ cs2, s3) := by
  rw [quickxplain_recursive]
  rw [dif_neg hc]
  simp only [horc]
  rw [dif_neg hl]
  simp only [h2, h1]

/-- `_quickxplain_recursive`: with a faithful monotone oracle, if the union of
background and candidates fails then the call returns a subset of the
candidates that together with the background fails, and each returned element
is necessary relative to the background and the rest of the result. -/
theorem quickxplain_recursive_spec {orc : Oracle σ} {f : Finset ℕ → Bool}
    {Good : σ → Prop} (hF : Faithful orc f Good) (hm : MonotoneOracle f) :
    ∀ (n : ℕ) (cand : List ℕ) (B : Finset ℕ) (s : σ), cand.length ≤ n →
      Good s → f (B ∪ cand.toFinset) = true →
      ∃ R s', quickxplain_recursive orc s B cand = (R, s') ∧ Good s' ∧
        R ⊆ cand.toFinset ∧ f (B ∪ R) = true ∧
        ∀ x ∈ R, f ((B ∪ R).erase x) = false := by
  intro n
  induction n with
  | zero =>
    intro cand B s hlen hs hT
    have hc : cand = [] := List.length_eq_zero.mp (Nat.le_zero.mp hlen)
    subst hc
    exact ⟨∅, s, quickxplain_eq_nil, hs, by simp, by simpa using hT, by simp⟩
  | succ n ih =>
    intro cand B s hlen hs hT
    by_cases hc : cand = []
    · subst hc
      exact ⟨∅, s, quickxplain_eq_nil, hs, by simp, by simpa using hT, by simp⟩
    · rcases horc : orc s B with ⟨v, s1⟩
      have hfact := hF s B hs
      rw [horc] at hfact
      rcases v with _ | _
      · -- background itself does not fail
        have hB : f B = false := hfact.1.symm
        by_cases hl : cand.length = 1
        · -- single candidate: it is returned as necessary
          refine ⟨cand.toFinset, s1, quickxplain_eq_one hc horc hl, hfact.2,
            le_refl _, hT, ?_⟩
          intro x hx
          have hsub : (B ∪ cand.toFinset).erase x ⊆ B := by
            rcases List.length_eq_one.mp hl with ⟨a, ha⟩
            subst ha
            have hxa : x = a := by simpa using hx
            subst hxa
            intro y hy
            rcases Finset.mem_erase.mp hy with ⟨hyx, hyB⟩
            rcases Finset.mem_union.mp hyB with hyB | hyc
            · exact hyB
            · exact absurd (by simpa using hyc) hyx
          exact monotone_false hm hsub hB
        · -- split the candidates and make the two recursive calls
          have hlen2 : 2 ≤ cand.length := by
            rcases cand with _ | ⟨a, t⟩
            · exact absurd rfl hc
            · rcases t with _ | ⟨b, t2⟩
              · exact absurd rfl hl
              · simp
          have hsplit : (cand.take (cand.length / 2)).toFinset ∪
              (cand.drop (cand.length / 2)).toFinset = cand.toFinset := by
            rw [← List.toFinset_append, List.take_append_drop]
          have hT2 : f (B ∪ (cand.take (cand.length / 2)).toFinset ∪
              (cand.drop (cand.length / 2)).toFinset) = true := by
            rw [Finset.union_assoc, hsplit]
            exact hT
          obtain ⟨cs2, s2, hq2, hgood2, hsub2, hf2, hmin2⟩ :=
            ih (cand.drop (cand.length / 2))
              (B ∪ (cand.take (cand.length / 2)).toFinset) s1
              (by simp only [List.length_drop]; omega) hfact.2 hT2
          have hT1 : f (B ∪ cs2 ∪ (cand.take (cand.length / 2)).toFinset)
              = true := by
            have he : B ∪ cs2 ∪ (cand.take (cand.length / 2)).toFinset =
                B ∪ (cand.take (cand.length / 2)).toFinset ∪ cs2 := by
              rw [Finset.union_assoc, Finset.union_assoc,
                Finset.union_comm cs2]
            rw [he]
            exact hf2
          obtain ⟨cs1, s3, hq1, hgood3, hsub1, hf1, hmin1⟩ :=
            ih (cand.take (cand.length / 2)) (B ∪ cs2) s2
              (by simp only [List.length_take]; omega) hgood2 hT1
          refine ⟨cs1 ∪ cs2, s3, quickxplain_eq_split hc horc hl hq2 hq1,
            hgood3, ?_, ?_, ?_⟩
          · intro x hx
            rcases Finset.mem_union.mp hx with hx1 | hx2
            · exact (hsplit ▸ Finset.mem_union_left _ (hsub1 hx1))
            · exact (hsplit ▸ Finset.mem_union_right _ (hsub2 hx2))
          · have he : B ∪ (cs1 ∪ cs2) = B ∪ cs2 ∪ cs1 := by
              rw [Finset.union_assoc, Finset.union_comm cs2]
            rw [he]
            exact hf1
          · intro x hx
            rcases Finset.mem_union.mp hx with hx1 | hx2
            · have he : B ∪ (cs1 ∪ cs2) = B ∪ cs2 ∪ cs1 := by
                rw [Finset.union_assoc, Finset.union_comm cs2]
              rw [he]
              exact hmin1 x hx1
            · have hsubst : (B ∪ (cs1 ∪ cs2)).erase x ⊆
                  (B ∪ (cand.take (cand.length / 2)).toFinset ∪ cs2).erase x := by
                apply Finset.erase_subset_erase
                rw [Finset.union_assoc]
                apply Finset.union_subset_union_right
                exact Finset.union_subset_union_left hsub1
              exact monotone_false hm hsubst (hmin2 x hx2)
      · -- background already fails: return the empty set
        refine ⟨∅, s1, quickxplain_eq_true hc horc, hfact.2, by simp, ?_,
          by simp⟩
        have hB : f B = true := hfact.1.symm
        simpa using hB

/-- `find_conflicts_qxp`: the QuickXplain driver returns a failing subset of
the input, each of whose elements is necessary, and returns the empty set on
a clean input. -/
theorem find_conflicts_qxp_spec {orc : Oracle σ} {f : Finset ℕ → Bool}
    {Good : σ → Prop} (hF : Faithful orc f Good) (hm : MonotoneOracle f)
    {s : σ} (all_mods : List ℕ) (hs : Good s) :
    ∃ R s', find_conflicts_qxp orc s all_mods = (R, s') ∧ Good s' ∧
      R ⊆ all_mods.toFinset ∧
      (f all_mods.toFinset = true → f R = true) ∧
      (f all_mods.toFinset = false → R = ∅) ∧
      (∀ x ∈ R, f (R.erase x) = false) := by
  rcases horc : orc s all_mods.toFinset with ⟨verdict, s1⟩
  have hfact := hF s all_mods.toFinset hs
  rw [horc] at hfact
  rcases verdict with _ | _
  · refine ⟨∅, s1, ?_, hfact.2, by simp, ?_, fun _ => rfl, by simp⟩
    · rw [find_conflicts_qxp, horc]
    · intro hT
      rw [hT] at hfact
      exact absurd hfact.1 (by simp)
  · have hT : f all_mods.toFinset = true := hfact.1.symm
    obtain ⟨R, s2, hq, hgood2, hsub, hfR, hminR⟩ :=
      quickxplain_recursive_spec hF hm all_mods.length all_mods ∅ s1
        (le_refl _) hfact.2 (by simpa using hT)
    refine ⟨R, s2, ?_, hgood2, hsub, fun _ => by simpa using hfR, ?_, ?_⟩
    · rw [find_conflicts_qxp, horc]
      exact hq
    · intro hfalse
      rw [hT] at hfalse
      exact absurd hfalse (by simp)
    · intro x hx
      have := hminR x hx
      simpa using this

/-! ## Correctness of the adaptive hybrid -/

theorem adaptive_eq_nil {orc : Oracle σ} {s : σ} {B : Finset ℕ} :
    adaptive_recursive orc s B [] = (∅, s) := by
  rw [adaptive_recursive]
  rw [dif_pos rfl]

theorem adaptive_eq_true {orc : Oracle σ} {s s1 : σ} {B : Finset ℕ}
    {cand : List ℕ} (hc : ¬ cand = []) (horc : orc s B = (true, s1)) :
    adaptive_recursive orc s B cand = (∅, s1) := by
  rw [adaptive_recursive]
  rw [dif_neg hc]
  simp only [horc]

theorem adaptive_eq_one {orc : Oracle σ} {s s1 : σ} {B : Finset ℕ}
    {cand : List ℕ} (hc : ¬ cand = []) (horc : orc s B = (false, s1))
    (hthr : cand.length ≤ ADAPTIVE_THRESHOLD) (hl : cand.length = 1) :
    adaptive_recursive orc s B cand = (cand.toFinset, s1) := by
  rw [adaptive_recursive]
  rw [dif_neg hc]
  simp only [horc]
  rw [if_pos hthr, dif_pos hl]

theorem adaptive_eq_split {orc : Oracle σ} {s s1 s2 s3 : σ} {B : Finset ℕ}
    {cand : List ℕ} {cs1 cs2 : Finset ℕ} (hc : ¬ cand = [])
    (horc : orc s B = (false, s1))
    (hthr : cand.length ≤ ADAPTIVE_THRESHOLD) (hl : ¬ cand.length = 1)
    (h2 : adaptive_recursive orc s1
      (B ∪ (cand.take (cand.length / 2)).toFinset)
      (cand.drop (cand.length / 2)) = (cs2, s2))
    (h1 : adaptive_recursive orc s2 (B ∪ cs2)
      (cand.take (cand.length / 2)) = (cs1, s3)) :
    adaptive_recursive orc s B cand = (cs1 ∪ cs2, s3) := by
  rw [adaptive_recursive]
  rw [dif_neg hc]
  simp only [horc]
  rw [if_pos hthr, dif_neg hl]
  simp only [h2, h1]

theorem adaptive_eq_peel_some {orc : Oracle σ} {s s1 s2 s3 : σ}
    {B : Finset ℕ} {cand : List ℕ} {c0 : ℕ} {rest : Finset ℕ}
    (hc : ¬ cand = []) (horc : orc s B = (false, s1))
    (hthr : ¬ cand.length ≤ ADAPTIVE_THRESHOLD)
    (hfo : find_one_culprit_recursive orc s1 B cand = (some c0, s2))
    (hr : adaptive_recursive orc s2 (B ∪ {c0}) (cand.erase c0)
      = (rest, s3)) :
    adaptive_recursive orc s B cand = ({c0} ∪ rest, s3) := by
  rw [adaptive_recursive]
  rw [dif_neg hc]
  simp only [horc]
  rw [if_neg hthr]
  rw [hfo]
  simp only [hr]

theorem adaptive_eq_peel_none {orc : Oracle σ} {s s1 s2 : σ}
    {B : Finset ℕ} {cand : List ℕ} (hc : ¬ cand = [])
    (horc : orc s B = (false, s1))
    (hthr : ¬ cand.length ≤ ADAPTIVE_THRESHOLD)
    (hfo : find_one_culprit_recursive orc s1 B cand = (none, s2)) :
    adaptive_recursive orc s B cand = (∅, s2) := by
  rw [adaptive_recursive]
  rw [dif_neg hc]
  simp only [horc]
  rw [if_neg hthr]
  rw [hfo]

theorem union_singleton_eq (B : Finset ℕ) (c : ℕ) : B ∪ {c} = insert c B := by
  ext x
  simp [or_comm]

/-- `_adaptive_recursive`: with a faithful monotone oracle, a duplicate-free
candidate list disjoint from the background whose union with the background
fails, the call returns a failing subset of the candidates in which every
element is necessary, and the result is contained in every prefix of the
candidate list that already fails together with the background. -/
theorem adaptive_recursive_spec {orc : Oracle σ} {f : Finset ℕ → Bool}
    {Good : σ → Prop} (hF : Faithful orc f Good) (hm : MonotoneOracle f) :
    ∀ (n : ℕ) (cand : List ℕ) (B : Finset ℕ) (s : σ), cand.length ≤ n →
      Good s → cand.Nodup → Disjoint B cand.toFinset →
      f (B ∪ cand.toFinset) = true →
      ∃ R s', adaptive_recursive orc s B cand = (R, s') ∧ Good s' ∧
        R ⊆ cand.toFinset ∧ f (B ∪ R) = true ∧
        (∀ x ∈ R, f ((B ∪ R).erase x) = false) ∧
        (∀ q tail, cand = q ++ tail → f (B ∪ q.toFinset) = true →
          R ⊆ q.toFinset) := by
  intro n
  induction n with
  | zero =>
    intro cand B s hlen hs hnd hdisj hT
    have hc : cand = [] := List.length_eq_zero.mp (Nat.le_zero.mp hlen)
    subst hc
    exact ⟨∅, s, adaptive_eq_nil, hs, by simp, by simpa using hT, by simp,
      by simp⟩
  | succ n ih =>
    intro cand B s hlen hs hnd hdisj hT
    by_cases hc : cand = []
    · subst hc
      exact ⟨∅, s, adaptive_eq_nil, hs, by simp, by simpa using hT, by simp,
        by simp⟩
    · rcases horc : orc s B with ⟨v, s1⟩
      have hfact := hF s B hs
      rw [horc] at hfact
      rcases v with _ | _
      · -- the background does not fail on its own
        have hB : f B = false := hfact.1.symm
        by_cases hthr : cand.length ≤ ADAPTIVE_THRESHOLD
        · by_cases hl : cand.length = 1
          · -- single candidate
            refine ⟨cand.toFinset, s1, adaptive_eq_one hc horc hthr hl,
              hfact.2, le_refl _, hT, ?_, ?_⟩
            · intro x hx
              have hsub : (B ∪ cand.toFinset).erase x ⊆ B := by
                rcases List.length_eq_one.mp hl with ⟨a, ha⟩
                subst ha
                have hxa : x = a := by simpa using hx
                subst hxa
                intro y hy
                rcases Finset.mem_erase.mp hy with ⟨hyx, hyB⟩
                rcases Finset.mem_union.mp hyB with hyB | hyc
                · exact hyB
                · exact absurd (by simpa using hyc) hyx
              exact monotone_false hm hsub hB
            · intro q tail hqt hfq
              rcases List.length_eq_one.mp hl with ⟨a, ha⟩
              subst ha
              rcases q with _ | ⟨b, q2⟩
              · simp only [List.toFinset_nil, Finset.union_empty] at hfq
                rw [hB] at hfq
                exact absurd hfq (by simp)
              · have hba : b = a := by
                  have h := congrArg List.headI hqt
                  exact (show a = b by simpa using h).symm
                subst hba
                intro x hx
                simp only [List.toFinset_cons]
                exact Finset.mem_insert.mpr (Or.inl (by simpa using hx))
          · -- QuickXplain-style split
            have hlen2 : 2 ≤ cand.length := by
              rcases cand with _ | ⟨a, t⟩
              · exact absurd rfl hc
              · rcases t with _ | ⟨b, t2⟩
                · exact absurd rfl hl
                · simp
            have hsplit : (cand.take (cand.length / 2)).toFinset ∪
                (cand.drop (cand.length / 2)).toFinset = cand.toFinset := by
              rw [← List.toFinset_append, List.take_append_drop]
            have hndc1 : (cand.take (cand.length / 2)).Nodup :=
              (List.take_sublist _ _).nodup hnd
            have hndc2 : (cand.drop (cand.length / 2)).Nodup :=
              (List.drop_sublist _ _).nodup hnd
            have hdisj12 : Disjoint (cand.take (cand.length / 2)).toFinset
                (cand.drop (cand.length / 2)).toFinset :=
              List.disjoint_toFinset_iff_disjoint.mpr
                (List.disjoint_take_drop hnd (le_refl _))
            have hdisjB1 : Disjoint B (cand.take (cand.length / 2)).toFinset :=
              Finset.disjoint_of_subset_right
                (hsplit ▸ Finset.subset_union_left) hdisj
            have hdisjB2 : Disjoint B (cand.drop (cand.length / 2)).toFinset :=
              Finset.disjoint_of_subset_right
                (hsplit ▸ Finset.subset_union_right) hdisj
            have hT2 : f (B ∪ (cand.take (cand.length / 2)).toFinset ∪
                (cand.drop (cand.length / 2)).toFinset) = true := by
              rw [Finset.union_assoc, hsplit]
              exact hT
            obtain ⟨cs2, s2, hq2, hgood2, hsub2, hf2, hmin2, hFPC2⟩ :=
              ih (cand.drop (cand.length / 2))
                (B ∪ (cand.take (cand.length / 2)).toFinset) s1
                (by simp only [List.length_drop]; omega) hfact.2 hndc2
                (Finset.disjoint_union_left.mpr ⟨hdisjB2, hdisj12⟩) hT2
            have hT1 : f (B ∪ cs2 ∪ (cand.take (cand.length / 2)).toFinset)
                = true := by
              have he : B ∪ cs2 ∪ (cand.take (cand.length / 2)).toFinset =
                  B ∪ (cand.take (cand.length / 2)).toFinset ∪ cs2 := by
                rw [Finset.union_assoc, Finset.union_assoc,
                  Finset.union_comm cs2]
              rw [he]
              exact hf2
            obtain ⟨cs1, s3, hq1, hgood3, hsub1, hf1, hmin1, hFPC1⟩ :=
              ih (cand.take (cand.length / 2)) (B ∪ cs2) s2
                (by simp only [List.length_take]; omega) hgood2
                hndc1
                (Finset.disjoint_union_left.mpr
                  ⟨hdisjB1, (Finset.disjoint_of_subset_left hsub2
                    hdisj12.symm)⟩) hT1
            refine ⟨cs1 ∪ cs2, s3, adaptive_eq_split hc horc hthr hl hq2 hq1,
              hgood3, ?_, ?_, ?_, ?_⟩
            · intro x hx
              rcases Finset.mem_union.mp hx with hx1 | hx2
              · exact (hsplit ▸ Finset.mem_union_left _ (hsub1 hx1))
              · exact (hsplit ▸ Finset.mem_union_right _ (hsub2 hx2))
            · have he : B ∪ (cs1 ∪ cs2) = B ∪ cs2 ∪ cs1 := by
                rw [Finset.union_assoc, Finset.union_comm cs2]
              rw [he]
              exact hf1
            · intro x hx
              rcases Finset.mem_union.mp hx with hx1 | hx2
              · have he : B ∪ (cs1 ∪ cs2) = B ∪ cs2 ∪ cs1 := by
                  rw [Finset.union_assoc, Finset.union_comm cs2]
                rw [he]
                exact hmin1 x hx1
              · have hsubst : (B ∪ (cs1 ∪ cs2)).erase x ⊆
                    (B ∪ (cand.take (cand.length / 2)).toFinset ∪ cs2).erase
                      x := by
                  apply Finset.erase_subset_erase
                  rw [Finset.union_assoc]
                  apply Finset.union_subset_union_right
                  exact Finset.union_subset_union_left hsub1
                exact monotone_false hm hsubst (hmin2 x hx2)
            · intro q tail hqt hfq
              have htake_gen : ∀ m : ℕ, List.take m cand =
                  List.take m q ++ List.take (m - q.length) tail := by
                intro m
                rw [hqt]
                exact List.take_append_eq_append_take
              have hdrop_gen : ∀ m : ℕ, List.drop m cand =
                  List.drop m q ++ List.drop (m - q.length) tail := by
                intro m
                rw [hqt]
                exact List.drop_append_eq_append_drop
              by_cases hqm : q.length ≤ cand.length / 2
              · -- q is a prefix of the first half
                have hc1 : cand.take (cand.length / 2) =
                    q ++ tail.take (cand.length / 2 - q.length) := by
                  rw [htake_gen, List.take_of_length_le hqm]
                have hqsub : q.toFinset ⊆
                    (cand.take (cand.length / 2)).toFinset := by
                  rw [hc1, List.toFinset_append]
                  exact Finset.subset_union_left
                have hcs2e : cs2 = ∅ := by
                  apply Finset.subset_empty.mp
                  have h0 := hFPC2 [] (cand.drop (cand.length / 2))
                    (List.nil_append _).symm ?_
                  · simpa using h0
                  · simp only [List.toFinset_nil, Finset.union_empty]
                    exact hm (Finset.union_subset_union_right hqsub) hfq
                have hcs1q := hFPC1 q (tail.take (cand.length / 2 - q.length))
                  hc1 ?_
                · intro x hx
                  rcases Finset.mem_union.mp hx with hx1 | hx2
                  · exact hcs1q hx1
                  · rw [hcs2e] at hx2
                    exact absurd hx2 (by simp)
                · rw [hcs2e, Finset.union_empty]
                  exact hfq
              · -- q extends beyond the first half
                have htake : cand.take (cand.length / 2) =
                    q.take (cand.length / 2) := by
                  rw [htake_gen]
                  have h0 : cand.length / 2 - q.length = 0 := by omega
                  rw [h0]
                  simp
                have hdrop : cand.drop (cand.length / 2) =
                    q.drop (cand.length / 2) ++ tail := by
                  rw [hdrop_gen]
                  have h0 : cand.length / 2 - q.length = 0 := by omega
                  rw [h0]
                  simp
                have hqsplit : (q.take (cand.length / 2)).toFinset ∪
                    (q.drop (cand.length / 2)).toFinset = q.toFinset := by
                  rw [← List.toFinset_append, List.take_append_drop]
                have hcs2q := hFPC2 (q.drop (cand.length / 2)) tail hdrop ?_
                · intro x hx
                  rcases Finset.mem_union.mp hx with hx1 | hx2
                  · have : x ∈ (q.take (cand.length / 2)).toFinset := by
                      rw [← htake]
                      exact hsub1 hx1
                    exact (hqsplit ▸ Finset.mem_union_left _ this)
                  · exact (hqsplit ▸ Finset.mem_union_right _ (hcs2q hx2))
                · rw [htake, Finset.union_assoc, hqsplit]
                  exact hfq
        · -- peel off the first culprit, then recurse
          obtain ⟨c0, p0, r0, hspec, hl0, hp0, hp0c⟩ := by
            have := fcs_stops_within hB hT []
            rwa [List.append_nil] at this
          rcases hfo : find_one_culprit_recursive orc s1 B cand with ⟨ores, s2⟩
          have hfoq := find_one_culprit_recursive_spec hF hm B cand hfact.2
          rw [hfo, hspec] at hfoq
          have hores : ores = some c0 := hfoq.1
          have hgood2 : Good s2 := hfoq.2
          subst hores
          have hc0cand : c0 ∈ cand := by
            rw [hl0]
            simp
          have hc0p0 : c0 ∉ p0 := nodup_middle_not_mem (hl0 ▸ hnd)
          have herase : cand.erase c0 = p0 ++ r0 := by
            rw [hl0, List.erase_append_right _ hc0p0,
              List.erase_cons_head]
          have hBc0 : B ∪ {c0} = insert c0 B := union_singleton_eq B c0
          have hTe : f (B ∪ {c0} ∪ (cand.erase c0).toFinset) = true := by
            rw [hBc0, insert_union_toFinset_erase hnd hc0cand B]
            exact hT
          have hdisj' : Disjoint (B ∪ {c0}) (cand.erase c0).toFinset := by
            apply Finset.disjoint_union_left.mpr
            constructor
            · apply Finset.disjoint_of_subset_right _ hdisj
              intro x hx
              exact List.mem_toFinset.mpr
                (List.mem_of_mem_erase (List.mem_toFinset.mp hx))
            · rw [Finset.disjoint_singleton_left]
              intro hmem
              rcases (hnd.mem_erase_iff).mp (List.mem_toFinset.mp hmem) with
                ⟨hne, _⟩
              exact hne rfl
          obtain ⟨rest, s3, hr, hgood3, hsubr, hfr, hminr, hFPCr⟩ :=
            ih (cand.erase c0) (B ∪ {c0}) s2
              (by have := List.length_erase_of_mem hc0cand
                  have hpos : 0 < cand.length :=
                    List.length_pos.mpr (List.ne_nil_of_mem hc0cand)
                  omega)
              hgood2 (hnd.erase c0) hdisj' hTe
          have hrp0 : rest ⊆ p0.toFinset := by
            apply hFPCr p0 r0 herase
            rw [hBc0, insert_union_eq]
            exact hp0c
          refine ⟨{c0} ∪ rest, s3,
            adaptive_eq_peel_some hc horc hthr hfo hr, hgood3, ?_, ?_, ?_, ?_⟩
          · intro x hx
            rcases Finset.mem_union.mp hx with hx1 | hx2
            · have : x = c0 := by simpa using hx1
              subst this
              exact List.mem_toFinset.mpr hc0cand
            · exact List.mem_toFinset.mpr
                (List.mem_of_mem_erase (List.mem_toFinset.mp (hsubr hx2)))
          · rw [← Finset.union_assoc]
            exact hfr
          · intro x hx
            rcases Finset.mem_union.mp hx with hx1 | hx2
            · have hxc0 : x = c0 := by simpa using hx1
              subst hxc0
              have hsub : (B ∪ ({x} ∪ rest)).erase x ⊆ B ∪ p0.toFinset := by
                intro y hy
                rcases Finset.mem_erase.mp hy with ⟨hyx, hym⟩
                rcases Finset.mem_union.mp hym with hyB | hyr
                · exact Finset.mem_union_left _ hyB
                · rcases Finset.mem_union.mp hyr with hy1 | hy2
                  · exact absurd (by simpa using hy1) hyx
                  · exact Finset.mem_union_right _ (hrp0 hy2)
              exact monotone_false hm hsub hp0
            · have := hminr x hx2
              rw [Finset.union_assoc] at this
              exact this
          · intro q tail hqt hfq
            have hspec2 : first_culprit_spec f B (q ++ tail) = some c0 := by
              rw [← hqt]
              exact hspec
            have hc0q : c0 ∈ q := fcs_some_mem_front hB hspec2 hfq
            have hndq : q.Nodup := List.Nodup.of_append_left (hqt ▸ hnd)
            have heraseq : cand.erase c0 = q.erase c0 ++ tail := by
              rw [hqt]
              exact List.erase_append_left tail hc0q
            have hrest_q := hFPCr (q.erase c0) tail heraseq ?_
            · intro x hx
              rcases Finset.mem_union.mp hx with hx1 | hx2
              · have : x = c0 := by simpa using hx1
                subst this
                exact List.mem_toFinset.mpr hc0q
              · exact List.mem_toFinset.mpr
                  (List.mem_of_mem_erase (List.mem_toFinset.mp (hrest_q hx2)))
            · rw [hBc0, insert_union_toFinset_erase hndq hc0q B]
              exact hfq
      · -- the background already fails: nothing to add
        refine ⟨∅, s1, adaptive_eq_true hc horc, hfact.2, by simp, ?_,
          by simp, by simp⟩
        have hBt : f B = true := hfact.1.symm
        simpa using hBt

/-- `find_conflicts_adaptive`: the adaptive driver returns a failing subset of
a duplicate-free input, each of whose elements is necessary, and the empty set
on a clean input. -/
theorem find_conflicts_adaptive_spec {orc : Oracle σ} {f : Finset ℕ → Bool}
    {Good : σ → Prop} (hF : Faithful orc f Good) (hm : MonotoneOracle f)
    {s : σ} (all_mods : List ℕ) (hs : Good s) (hnd : all_mods.Nodup) :
    ∃ R s', find_conflicts_adaptive orc s all_mods = (R, s') ∧ Good s' ∧
      R ⊆ all_mods.toFinset ∧
      (f all_mods.toFinset = true → f R = true) ∧
      (f all_mods.toFinset = false → R = ∅) ∧
      (∀ x ∈ R, f (R.erase x) = false) := by
  rcases horc : orc s all_mods.toFinset with ⟨verdict, s1⟩
  have hfact := hF s all_mods.toFinset hs
  rw [horc] at hfact
  rcases verdict with _ | _
  · refine ⟨∅, s1, ?_, hfact.2, by simp, ?_, fun _ => rfl, by simp⟩
    · rw [find_conflicts_adaptive, horc]
    · intro hT
      rw [hT] at hfact
      exact absurd hfact.1 (by simp)
  · have hT : f all_mods.toFinset = true := hfact.1.symm
    obtain ⟨R, s2, hq, hgood2, hsub, hfR, hminR, _⟩ :=
      adaptive_recursive_spec hF hm all_mods.length all_mods ∅ s1
        (le_refl _) hfact.2 hnd (by simp) (by simpa using hT)
    refine ⟨R, s2, ?_, hgood2, hsub, fun _ => by simpa using hfR, ?_, ?_⟩
    · rw [find_conflicts_adaptive, horc]
      exact hq
    · intro hfalse
      rw [hT] at hfalse
      exact absurd hfalse (by simp)
    · intro x hx
      have := hminR x hx
      simpa using this

/-! ## Structural invariants of the enumerator (oracle-independent) -/

/-- Whatever the oracle does, the IMCS loop only ever adds elements drawn from
its candidate pool. -/
theorem smart_additive_loop_subset {orc : Oracle σ} :
    ∀ (n : ℕ) (l : List ℕ) (C : Finset ℕ) (s : σ), l.length ≤ n →
      (smart_additive_loop orc s C l).1 ⊆ C ∪ l.toFinset := by
  intro n
  induction n with
  | zero =>
    intro l C s hlen
    have hl : l = [] := List.length_eq_zero.mp (Nat.le_zero.mp hlen)
    subst hl
    have hfn : find_next_conflict_element_optimized orc s C [] = (none, s) := by
      rw [find_next_conflict_element_optimized]
      show find_next_element_sorted orc s C [] = (none, s)
      rw [find_next_element_sorted]
    rw [smart_additive_loop_eq_of_none hfn]
    simp
  | succ n ih =>
    intro l C s hlen
    rcases hfn : find_next_conflict_element_optimized orc s C l with ⟨ores, s1⟩
    rcases ores with _ | c0
    · rw [smart_additive_loop_eq_of_none hfn]
      exact Finset.subset_union_left
    · have hc0l : c0 ∈ l :=
        find_next_conflict_element_optimized_mem (by rw [hfn])
      rw [smart_additive_loop_eq_of_some hfn]
      rcases horc2 : orc s1 (insert c0 C) with ⟨v, s2⟩
      rcases v with _ | _
      · simp only [horc2]
        have hlen2 : (l.erase c0).length ≤ n := by
          have h1 := List.length_erase_of_mem hc0l
          have h2 : 0 < l.length := List.length_pos.mpr (List.ne_nil_of_mem hc0l)
          omega
        intro x hx
        have := ih (l.erase c0) (insert c0 C) s2 hlen2 hx
        rcases Finset.mem_union.mp this with hxi | hxe
        · rcases Finset.mem_insert.mp hxi with rfl | hxC
          · exact Finset.mem_union_right _ (List.mem_toFinset.mpr hc0l)
          · exact Finset.mem_union_left _ hxC
        · exact Finset.mem_union_right _ (List.mem_toFinset.mpr
            (List.mem_of_mem_erase (List.mem_toFinset.mp hxe)))
      · simp only [horc2]
        intro x hx
        rcases Finset.mem_insert.mp hx with rfl | hxC
        · exact Finset.mem_union_right _ (List.mem_toFinset.mpr hc0l)
        · exact Finset.mem_union_left _ hxC

/-- `find_single_conflict_set` is the IMCS loop started on the sorted pool
with an empty conflict set; its result is always a subset of the pool. -/
theorem find_single_conflict_set_subset (orc : Oracle σ) (s : σ)
    (l : List ℕ) : (find_single_conflict_set orc s l).1 ⊆ l.toFinset := by
  rw [find_single_conflict_set]
  intro x hx
  have := smart_additive_loop_subset (l.insertionSort (· ≤ ·)).length
    (l.insertionSort (· ≤ ·)) ∅ s (le_refl _) hx
  rcases Finset.mem_union.mp this with hxe | hxs
  · exact absurd hxe (Finset.not_mem_empty x)
  · rw [List.toFinset_eq_of_perm _ _ (List.perm_insertionSort _ _)] at hxs
    exact hxs

/-- Unfolding of one iteration of the enumerator loop. -/
theorem enumerator_loop_succ {orc : Oracle σ} {fuel : ℕ} {candidates : List ℕ}
    {kb : KnowledgeBase σ} :
    enumerator_loop orc (fuel + 1) candidates kb =
      match find_single_conflict_set (KnowledgeBase.test orc) kb candidates with
      | (new_conflict_set, kb1) =>
        if new_conflict_set = ∅ then (some [], kb1)
        else
          match KnowledgeBase.test orc kb1
              (candidates.filter (fun x => x ∉ new_conflict_set)).toFinset with
          | (true, kb2) =>
            match enumerator_loop orc fuel
                (candidates.filter (fun x => x ∉ new_conflict_set)) kb2 with
            | (some rest, kb3) => (some (new_conflict_set :: rest), kb3)
            | (none, kb3) => (none, kb3)
          | (false, kb2) => (some [new_conflict_set], kb2) := by
  rw [enumerator_loop]

/-- Whatever the oracle does, every returned conflict set is drawn from the
candidate pool and the returned sets are pairwise disjoint. -/
theorem enumerator_loop_inv {orc : Oracle σ} :
    ∀ (fuel : ℕ) (candidates : List ℕ) (kb : KnowledgeBase σ)
      (res : List (Finset ℕ)) (kb' : KnowledgeBase σ),
      enumerator_loop orc fuel candidates kb = (some res, kb') →
      (∀ X ∈ res, X ⊆ candidates.toFinset) ∧
      List.Pairwise Disjoint res := by
  intro fuel
  induction fuel with
  | zero =>
    intro candidates kb res kb' h
    rw [enumerator_loop] at h
    exact absurd (congrArg Prod.fst h) (by simp)
  | succ fuel ih =>
    intro candidates kb res kb' h
    rw [enumerator_loop_succ] at h
    rcases hfscs : find_single_conflict_set (KnowledgeBase.test orc) kb
        candidates with ⟨ncs, kb1⟩
    simp only [hfscs] at h
    by_cases hempty : ncs = ∅
    · rw [if_pos hempty] at h
      have hres : res = [] := by
        have := congrArg Prod.fst h
        simpa using this.symm
      subst hres
      exact ⟨by simp, by simp⟩
    · rw [if_neg hempty] at h
      have hncs_sub : ncs ⊆ candidates.toFinset := by
        have := find_single_conflict_set_subset (KnowledgeBase.test orc)
          kb candidates
        rw [hfscs] at this
        exact this
      rcases htest : KnowledgeBase.test orc kb1
          (candidates.filter (fun x => x ∉ ncs)).toFinset with ⟨v, kb2⟩
      rcases v with _ | _
      all_goals simp only [htest] at h
      · have hres : res = [ncs] := by
          have := congrArg Prod.fst h
          simpa using this.symm
        subst hres
        refine ⟨?_, by simp⟩
        intro X hX
        have : X = ncs := by simpa using hX
        subst this
        exact hncs_sub
      · rcases hrec : enumerator_loop orc fuel
            (candidates.filter (fun x => x ∉ ncs)) kb2 with ⟨ores, kb3⟩
        rw [hrec] at h
        rcases ores with _ | rest
        · exact absurd (congrArg Prod.fst h) (by simp)
        · have hres : res = ncs :: rest := by
            have := congrArg Prod.fst h
            simpa using this.symm
          subst hres
          rcases ih (candidates.filter (fun x => x ∉ ncs)) kb2 rest kb3 hrec
            with ⟨ihsub, ihdisj⟩
          have hfilter_sub : (candidates.filter
              (fun x => x ∉ ncs)).toFinset ⊆ candidates.toFinset := by
            intro x hx
            exact List.mem_toFinset.mpr
              (List.mem_of_mem_filter (List.mem_toFinset.mp hx))
          refine ⟨?_, ?_⟩
          · intro X hX
            rcases List.mem_cons.mp hX with rfl | hX2
            · exact hncs_sub
            · exact (ihsub X hX2).trans hfilter_sub
          · refine List.Pairwise.cons ?_ ihdisj
            intro Y hY
            have hYsub := ihsub Y hY
            rw [Finset.disjoint_left]
            intro a ha haY
            have := hYsub haY
            rcases List.mem_filter.mp (List.mem_toFinset.mp this) with ⟨_, hnot⟩
            simp only [decide_eq_true_eq] at hnot
            exact hnot ha

/-- Whatever the oracle does, the enumerator loop answers within its fuel
bound: one iteration removes the (non-empty) discovered set from the pool, so
the pool length strictly decreases. -/
theorem enumerator_loop_some {orc : Oracle σ} :
    ∀ (fuel : ℕ) (candidates : List ℕ) (kb : KnowledgeBase σ),
      candidates.length < fuel →
      ∃ res kb', enumerator_loop orc fuel candidates kb = (some res, kb') := by
  intro fuel
  induction fuel with
  | zero =>
    intro candidates kb h
    exact absurd h (by omega)
  | succ fuel ih =>
    intro candidates kb h
    rw [enumerator_loop_succ]
    rcases hfscs : find_single_conflict_set (KnowledgeBase.test orc) kb
        candidates with ⟨ncs, kb1⟩
    simp only [hfscs]
    by_cases hempty : ncs = ∅
    · rw [if_pos hempty]
      exact ⟨[], kb1, rfl⟩
    · rw [if_neg hempty]
      rcases htest : KnowledgeBase.test orc kb1
          (candidates.filter (fun x => x ∉ ncs)).toFinset with ⟨v, kb2⟩
      rcases v with _ | _
      · simp only [htest]
        exact ⟨[ncs], kb2, rfl⟩
      · have hncs_sub : ncs ⊆ candidates.toFinset := by
          have := find_single_conflict_set_subset (KnowledgeBase.test orc)
            kb candidates
          rw [hfscs] at this
          exact this
        obtain ⟨w, hw⟩ := Finset.nonempty_iff_ne_empty.mpr hempty
        have hwc : w ∈ candidates := List.mem_toFinset.mp (hncs_sub hw)
        have hlt : (candidates.filter (fun x => x ∉ ncs)).length <
            candidates.length := by
          apply length_filter_lt_of_mem hwc
          simp [hw]
        obtain ⟨rest, kb3, hrec⟩ := ih (candidates.filter (fun x => x ∉ ncs))
          kb2 (by omega)
        simp only [htest, hrec]
        exact ⟨ncs :: rest, kb3, rfl⟩

/-! ## The memoizing cache: faithfulness, idempotence and counting -/

theorem lookup_some_mem {l : List (Finset ℕ × Bool)} {S : Finset ℕ} {b : Bool}
    (h : l.lookup S = some b) : (S, b) ∈ l := by
  induction l with
  | nil => simp [List.lookup] at h
  | cons e t ih =>
    rcases e with ⟨k, v⟩
    rw [List.lookup] at h
    by_cases hk : S = k
    · subst hk
      simp only [beq_self_eq_true] at h
      have : v = b := by simpa using h
      subst this
      exact List.mem_cons_self _ _
    · have hbeq : (S == k) = false := beq_eq_false_iff_ne.mpr hk
      rw [hbeq] at h
      exact List.mem_cons_of_mem _ (ih h)

theorem lookup_none_not_mem {l : List (Finset ℕ × Bool)} {S : Finset ℕ}
    (h : l.lookup S = none) : S ∉ l.map Prod.fst := by
  induction l with
  | nil => simp
  | cons e t ih =>
    rcases e with ⟨k, v⟩
    rw [List.lookup] at h
    by_cases hk : S = k
    · subst hk
      simp at h
    · have hbeq : (S == k) = false := beq_eq_false_iff_ne.mpr hk
      rw [hbeq] at h
      simp only [List.map_cons, List.mem_cons]
      rintro (hx | hx)
      · exact hk hx
      · exact ih h hx

theorem lookup_mem_isSome {l : List (Finset ℕ × Bool)} {S : Finset ℕ}
    (h : S ∈ l.map Prod.fst) : (l.lookup S).isSome := by
  rcases hlook : l.lookup S with _ | b
  · exact absurd h (lookup_none_not_mem hlook)
  · rfl

/-- The cache entries record the pure verdict function. -/
def CacheOK (f : Finset ℕ → Bool) (kb : KnowledgeBase ℕ) : Prop :=
  ∀ e ∈ kb.cache, e.2 = f e.1

/-- Invariant of a knowledge base over a faithful oracle: all cache entries
record `f`, and the wrapped state is good. -/
def GoodKB (f : Finset ℕ → Bool) (Good : σ → Prop)
    (kb : KnowledgeBase σ) : Prop :=
  (∀ e ∈ kb.cache, e.2 = f e.1) ∧ Good kb.inner

/-- `KnowledgeBase.test` is faithful to the same pure verdict function as the
oracle it wraps. -/
theorem kb_test_faithful {orc : Oracle σ} {f : Finset ℕ → Bool}
    {Good : σ → Prop} (hF : Faithful orc f Good) :
    Faithful (KnowledgeBase.test orc) f (GoodKB f Good) := by
  intro kb S hkb
  cases hlook : kb.cache.lookup S with
  | some r =>
    simp only [KnowledgeBase.test, hlook]
    exact ⟨hkb.1 (S, r) (lookup_some_mem hlook), hkb⟩
  | none =>
    rcases horc : orc kb.inner S with ⟨res, s1⟩
    have hfact := hF kb.inner S hkb.2
    rw [horc] at hfact
    simp only [KnowledgeBase.test, hlook, horc]
    refine ⟨hfact.1, ?_, hfact.2⟩
    intro e he
    rcases List.mem_cons.mp he with rfl | he2
    · exact hfact.1
    · exact hkb.1 e he2

/-- A query whose key is already cached returns the cached verdict and leaves
the knowledge base (cache and wrapped oracle state) completely unchanged. -/
theorem kb_test_cached {orc : Oracle σ} {kb : KnowledgeBase σ}
    {S : Finset ℕ} {b : Bool} (h : kb.cache.lookup S = some b) :
    KnowledgeBase.test orc kb S = (b, kb) := by
  simp only [KnowledgeBase.test, h]

/-- A sequence of `KnowledgeBase.test` calls against a single shared knowledge
base, as a fold over the list of queried subsets. -/
def kb_run_queries (orc : Oracle σ) (kb : KnowledgeBase σ)
    (qs : List (Finset ℕ)) : KnowledgeBase σ :=
  qs.foldl (fun k S => (KnowledgeBase.test orc k S).2) kb

/-- The set of subsets currently cached. -/
def cacheKeys (kb : KnowledgeBase σ) : Finset (Finset ℕ) :=
  (kb.cache.map Prod.fst).toFinset

theorem kb_run_queries_nil {orc : Oracle σ} {kb : KnowledgeBase σ} :
    kb_run_queries orc kb [] = kb := rfl

theorem kb_run_queries_cons {orc : Oracle σ} {kb : KnowledgeBase σ}
    {q : Finset ℕ} {qs : List (Finset ℕ)} :
    kb_run_queries orc kb (q :: qs) =
      kb_run_queries orc (KnowledgeBase.test orc kb q).2 qs := rfl

/-- Against a counting oracle, a query sequence grows the cache keys by
exactly the queried subsets, and advances the real invocation counter by
exactly the number of new distinct keys. -/
theorem kb_run_queries_count {f : Finset ℕ → Bool} :
    ∀ (qs : List (Finset ℕ)) (kb : KnowledgeBase ℕ),
      cacheKeys (kb_run_queries (countingOracle f) kb qs) =
        cacheKeys kb ∪ qs.toFinset ∧
      (kb_run_queries (countingOracle f) kb qs).inner +
          (cacheKeys kb).card =
        kb.inner + (cacheKeys (kb_run_queries (countingOracle f) kb qs)).card := by
  intro qs
  induction qs with
  | nil =>
    intro kb
    simp [kb_run_queries_nil]
  | cons q qs ih =>
    intro kb
    rw [kb_run_queries_cons]
    cases hlook : kb.cache.lookup q with
    | some r =>
      have hstep : (KnowledgeBase.test (countingOracle f) kb q).2 = kb := by
        rw [kb_test_cached hlook]
      rw [hstep]
      have hqmem : q ∈ cacheKeys kb := by
        rw [cacheKeys, List.mem_toFinset, List.mem_map]
        exact ⟨(q, r), lookup_some_mem hlook, rfl⟩
      rcases ih kb with ⟨ih1, ih2⟩
      refine ⟨?_, ih2⟩
      rw [ih1]
      ext x
      simp only [Finset.mem_union, List.toFinset_cons, Finset.mem_insert]
      constructor
      · rintro (hx | hx)
        · exact Or.inl hx
        · exact Or.inr (Or.inr hx)
      · rintro (hx | hx | hx)
        · exact Or.inl hx
        · exact Or.inl (hx ▸ hqmem)
        · exact Or.inr hx
    | none =>
      have hqnot : q ∉ cacheKeys kb := by
        rw [cacheKeys, List.mem_toFinset]
        exact lookup_none_not_mem hlook
      have hstep : (KnowledgeBase.test (countingOracle f) kb q).2 =
          ⟨(q, f q) :: kb.cache, kb.inner + 1⟩ := by
        simp only [KnowledgeBase.test, hlook, countingOracle]
      rw [hstep]
      rcases ih ⟨(q, f q) :: kb.cache, kb.inner + 1⟩ with ⟨ih1, ih2⟩
      have hkeys : cacheKeys (⟨(q, f q) :: kb.cache, kb.inner + 1⟩ :
          KnowledgeBase ℕ) = insert q (cacheKeys kb) := by
        rw [cacheKeys, cacheKeys]
        simp
      have hcard : (insert q (cacheKeys kb)).card = (cacheKeys kb).card + 1 :=
        Finset.card_insert_of_not_mem hqnot
      constructor
      · rw [ih1, hkeys]
        ext x
        simp only [Finset.mem_union, Finset.mem_insert, List.toFinset_cons]
        tauto
      · rw [ih1] at ih2 ⊢
        rw [hkeys] at ih2 ⊢
        simp only [] at ih2 ⊢
        omega

/-! ## Cache transparency: the memoized and direct runs agree -/

theorem kb_call_pair {f : Finset ℕ → Bool} {kb : KnowledgeBase ℕ}
    (hkb : CacheOK f kb) (S : Finset ℕ) :
    (KnowledgeBase.test (countingOracle f) kb S).1 = f S ∧
    CacheOK f (KnowledgeBase.test (countingOracle f) kb S).2 ∧
    (KnowledgeBase.test (countingOracle f) kb S).2.inner ≤ kb.inner + 1 ∧
    kb.inner ≤ (KnowledgeBase.test (countingOracle f) kb S).2.inner := by
  cases hlook : kb.cache.lookup S with
  | some r =>
    simp only [KnowledgeBase.test, hlook]
    exact ⟨hkb (S, r) (lookup_some_mem hlook), hkb, by omega, le_refl _⟩
  | none =>
    simp only [KnowledgeBase.test, hlook, countingOracle]
    refine ⟨by trivial, ?_, by omega, by omega⟩
    intro e he
    rcases List.mem_cons.mp he with rfl | he2
    · rfl
    · exact hkb e he2

/-- The sorted-list scan run against the memoizing cache returns the same
element as the direct run, keeps the cache truthful, and advances the real
counter by no more than the direct run does. -/
theorem find_next_element_sorted_pair {f : Finset ℕ → Bool} :
    ∀ (kb : KnowledgeBase ℕ) (B : Finset ℕ) (l : List ℕ), CacheOK f kb →
      ∀ cnt : ℕ,
      (find_next_element_sorted (KnowledgeBase.test (countingOracle f))
          kb B l).1
        = (find_next_element_sorted (countingOracle f) cnt B l).1 ∧
      CacheOK f (find_next_element_sorted (KnowledgeBase.test
          (countingOracle f)) kb B l).2 ∧
      (find_next_element_sorted (KnowledgeBase.test (countingOracle f))
          kb B l).2.inner + cnt
        ≤ kb.inner +
          (find_next_element_sorted (countingOracle f) cnt B l).2 := by
  intro kb B l
  induction kb, B, l using find_next_element_sorted.induct
      (KnowledgeBase.test (countingOracle f)) with
  | case1 kb B =>
    intro hkb cnt
    simp only [find_next_element_sorted]
    exact ⟨by trivial, hkb, by omega⟩
  | case2 kb B c verdict kb1 horc =>
    intro hkb cnt
    have hpair := kb_call_pair hkb (B ∪ {c})
    rw [horc] at hpair
    have hv : verdict = f (B ∪ {c}) := hpair.1
    simp only [find_next_element_sorted, horc, countingOracle, ← hv]
    refine ⟨by trivial, hpair.2.1, ?_⟩
    have h1 : kb1.inner ≤ kb.inner + 1 := hpair.2.2.1
    omega
  | case3 kb B a b rest cl mid c1 kb1 horc hlen =>
    intro hkb cnt
    have hpair := kb_call_pair hkb (B ∪ c1.toFinset)
    rw [horc] at hpair
    have hv : f (B ∪ c1.toFinset) = true := hpair.1.symm
    simp only [find_next_element_sorted, horc, countingOracle, hv, hlen,
      reduceIte]
    refine ⟨by trivial, hpair.2.1, ?_⟩
    have h1 : kb1.inner ≤ kb.inner + 1 := hpair.2.2.1
    omega
  | case4 kb B a b rest cl mid c1 kb1 horc hlen ih =>
    intro hkb cnt
    have hpair := kb_call_pair hkb (B ∪ c1.toFinset)
    rw [horc] at hpair
    have hv : f (B ∪ c1.toFinset) = true := hpair.1.symm
    rcases ih hpair.2.1 (cnt + 1) with ⟨ih1, ih2, ih3⟩
    simp only [find_next_element_sorted, horc, countingOracle, hv, hlen,
      reduceIte]
    refine ⟨ih1, ih2, ?_⟩
    have h1 : kb1.inner ≤ kb.inner + 1 := hpair.2.2.1
    have hc1 : c1 = (a :: b :: rest).take ((a :: b :: rest).length / 2) := rfl
    rw [← hc1]
    omega
  | case5 kb B a b rest cl mid c1 c2 kb1 horc nb hlen verdict kb2 horc2 =>
    intro hkb cnt
    have hpair := kb_call_pair hkb (B ∪ c1.toFinset)
    rw [horc] at hpair
    have hv : f (B ∪ c1.toFinset) = false := hpair.1.symm
    have hpair2 := kb_call_pair hpair.2.1 (B ∪ c1.toFinset ∪ {c2.headI})
    rw [horc2] at hpair2
    have hv2 : verdict = f (B ∪ c1.toFinset ∪ {c2.headI}) := hpair2.1
    simp only [find_next_element_sorted, horc, horc2, countingOracle, hv,
      hlen, reduceIte, ← hv2]
    refine ⟨by trivial, hpair2.2.1, ?_⟩
    have h1 : kb1.inner ≤ kb.inner + 1 := hpair.2.2.1
    have h2 : kb2.inner ≤ kb1.inner + 1 := hpair2.2.2.1
    omega
  | case6 kb B a b rest cl mid c1 c2 kb1 horc nb hlen ih =>
    intro hkb cnt
    have hpair := kb_call_pair hkb (B ∪ c1.toFinset)
    rw [horc] at hpair
    have hv : f (B ∪ c1.toFinset) = false := hpair.1.symm
    rcases ih hpair.2.1 (cnt + 1) with ⟨ih1, ih2, ih3⟩
    simp only [find_next_element_sorted, horc, countingOracle, hv, hlen,
      reduceIte]
    refine ⟨ih1, ih2, ?_⟩
    have h1 : kb1.inner ≤ kb.inner + 1 := hpair.2.2.1
    have hc1 : c1 = (a :: b :: rest).take ((a :: b :: rest).length / 2) := rfl
    have hc2 : c2 = (a :: b :: rest).drop ((a :: b :: rest).length / 2) := rfl
    have hnb : nb = B ∪ c1.toFinset := rfl
    rw [← hc1, ← hnb, ← hc2]
    omega

/-- The IMCS loop run against the memoizing cache returns the same conflict
set as the direct run and advances the real counter by no more than the
direct run does. -/
theorem smart_additive_loop_pair {f : Finset ℕ → Bool} :
    ∀ (n : ℕ) (l : List ℕ) (C : Finset ℕ) (kb : KnowledgeBase ℕ) (cnt : ℕ),
      l.length ≤ n → CacheOK f kb →
      (smart_additive_loop (KnowledgeBase.test (countingOracle f)) kb C l).1
        = (smart_additive_loop (countingOracle f) cnt C l).1 ∧
      CacheOK f (smart_additive_loop (KnowledgeBase.test (countingOracle f))
          kb C l).2 ∧
      (smart_additive_loop (KnowledgeBase.test (countingOracle f))
          kb C l).2.inner + cnt
        ≤ kb.inner + (smart_additive_loop (countingOracle f) cnt C l).2 := by
  intro n
  induction n with
  | zero =>
    intro l C kb cnt hlen hkb
    have hl : l = [] := List.length_eq_zero.mp (Nat.le_zero.mp hlen)
    subst hl
    have hfnk : find_next_conflict_element_optimized
        (KnowledgeBase.test (countingOracle f)) kb C [] = (none, kb) := by
      rw [find_next_conflict_element_optimized]
      show find_next_element_sorted _ kb C [] = (none, kb)
      rw [find_next_element_sorted]
    have hfnc : find_next_conflict_element_optimized (countingOracle f)
        cnt C [] = (none, cnt) := by
      rw [find_next_conflict_element_optimized]
      show find_next_element_sorted _ cnt C [] = (none, cnt)
      rw [find_next_element_sorted]
    rw [smart_additive_loop_eq_of_none hfnk,
      smart_additive_loop_eq_of_none hfnc]
    exact ⟨rfl, hkb, le_refl _⟩
  | succ n ih =>
    intro l C kb cnt hlen hkb
    rcases hfnk : find_next_conflict_element_optimized
        (KnowledgeBase.test (countingOracle f)) kb C l with ⟨oresK, kb1⟩
    rcases hfnc : find_next_conflict_element_optimized (countingOracle f)
        cnt C l with ⟨oresC, cnt1⟩
    have hp := find_next_element_sorted_pair kb C
      (l.insertionSort (· ≤ ·)) hkb cnt
    rw [find_next_conflict_element_optimized] at hfnk hfnc
    rw [hfnk, hfnc] at hp
    rcases hp with ⟨hp1, hp2, hp3⟩
    have hp3' : kb1.inner + cnt ≤ kb.inner + cnt1 := hp3
    have hores : oresK = oresC := hp1
    subst hores
    have hfnk0 : find_next_conflict_element_optimized
        (KnowledgeBase.test (countingOracle f)) kb C l = (oresK, kb1) := by
      rw [find_next_conflict_element_optimized]
      exact hfnk
    have hfnc0 : find_next_conflict_element_optimized (countingOracle f)
        cnt C l = (oresK, cnt1) := by
      rw [find_next_conflict_element_optimized]
      exact hfnc
    rcases oresK with _ | c0
    · rw [smart_additive_loop_eq_of_none hfnk0,
        smart_additive_loop_eq_of_none hfnc0]
      exact ⟨rfl, hp2, hp3⟩
    · have hc0l : c0 ∈ l :=
        find_next_conflict_element_optimized_mem (by rw [hfnk0])
      rw [smart_additive_loop_eq_of_some hfnk0,
        smart_additive_loop_eq_of_some hfnc0]
      rcases horc2 : KnowledgeBase.test (countingOracle f) kb1
          (insert c0 C) with ⟨v2, kb2⟩
      have hpair2 := kb_call_pair hp2 (insert c0 C)
      rw [horc2] at hpair2
      have hv2 : v2 = f (insert c0 C) := hpair2.1
      rcases hfv : f (insert c0 C) with _ | _
      · have hv2f : v2 = false := by rw [hv2, hfv]
        subst hv2f
        simp only [horc2, countingOracle, hfv]
        have hlen2 : (l.erase c0).length ≤ n := by
          have h1 := List.length_erase_of_mem hc0l
          have h2 : 0 < l.length :=
            List.length_pos.mpr (List.ne_nil_of_mem hc0l)
          omega
        rcases ih (l.erase c0) (insert c0 C) kb2 (cnt1 + 1) hlen2
          hpair2.2.1 with ⟨ih1, ih2, ih3⟩
        refine ⟨ih1, ih2, ?_⟩
        have h4 : kb2.inner ≤ kb1.inner + 1 := hpair2.2.2.1
        omega
      · have hv2t : v2 = true := by rw [hv2, hfv]
        subst hv2t
        simp only [horc2, countingOracle, hfv]
        refine ⟨by trivial, hpair2.2.1, ?_⟩
        have h4 : kb2.inner ≤ kb1.inner + 1 := hpair2.2.2.1
        omega

/-! ## Enumerator completeness for pairwise-disjoint planted conflict sets -/

theorem find_single_conflict_set_eq (orc : Oracle σ) (s : σ) (l : List ℕ) :
    find_single_conflict_set orc s l = find_conflicts_smart_additive orc s l :=
  rfl

/-- A failing 1-minimal set under the any-planted oracle is one of the
planted sets. -/
theorem planted_any_exact {ps : List (Finset ℕ)} {R : Finset ℕ}
    (hfR : ps.any (fun c => decide (c ⊆ R)) = true)
    (hmin : ∀ x ∈ R, ps.any (fun c => decide (c ⊆ R.erase x)) = false) :
    ∃ p ∈ ps, R = p := by
  rcases List.any_eq_true.mp hfR with ⟨p, hp, hpR⟩
  rw [decide_eq_true_eq] at hpR
  refine ⟨p, hp, Finset.Subset.antisymm ?_ hpR⟩
  intro x hxR
  by_contra hxp
  have hsub : p ⊆ R.erase x := fun y hy =>
    Finset.mem_erase.mpr ⟨fun he => hxp (he ▸ hy), hpR hy⟩
  have h2 := List.any_eq_false.mp (hmin x hxR) p hp
  exact h2 (decide_eq_true hsub)

/-- Pairwise disjoint non-empty sets are pairwise distinct. -/
theorem pairwise_disjoint_nodup {ps : List (Finset ℕ)}
    (hdisj : ps.Pairwise Disjoint) (hne : ∀ p ∈ ps, p ≠ ∅) : ps.Nodup := by
  induction ps with
  | nil => exact List.nodup_nil
  | cons a t ih =>
    rcases List.pairwise_cons.mp hdisj with ⟨ha, ht⟩
    refine List.nodup_cons.mpr ⟨?_, ih ht (fun p hp => hne p
      (List.mem_cons_of_mem a hp))⟩
    intro hat
    have hdaa : Disjoint a a := ha a hat
    exact hne a (List.mem_cons_self a t) (by simpa using disjoint_self.mp hdaa)

/-- Replacing the filter predicate by one that disagrees only on a single
distinguished element (kept on the left, dropped on the right) permutes the
filtered list against consing that element. -/
theorem filter_perm_cons {ps : List (Finset ℕ)} {p0 : Finset ℕ}
    (P Q : Finset ℕ → Bool) (hnd : ps.Nodup) (hp0 : p0 ∈ ps)
    (hP0 : P p0 = true) (hQ0 : Q p0 = false)
    (hag : ∀ p ∈ ps, p ≠ p0 → P p = Q p) :
    (ps.filter P).Perm (p0 :: ps.filter Q) := by
  induction ps with
  | nil => simp at hp0
  | cons a t ih =>
    rcases List.nodup_cons.mp hnd with ⟨hat, hndt⟩
    by_cases ha : a = p0
    · subst ha
      have hfeq : t.filter P = t.filter Q := by
        apply List.filter_congr
        intro p hp
        exact hag p (List.mem_cons_of_mem a hp) (fun he => hat (he ▸ hp))
      have h1 : ∀ (x y : List (Finset ℕ)),
          (if (true : Bool) = true then x else y) = x := fun x y => by simp
      have h2 : ∀ (x y : List (Finset ℕ)),
          (if (false : Bool) = true then x else y) = y := fun x y => by simp
      rw [List.filter_cons, List.filter_cons, hP0, hQ0, h1, h2, hfeq]
    · have hp0t : p0 ∈ t := by
        rcases List.mem_cons.mp hp0 with he | ht2
        · exact absurd he.symm ha
        · exact ht2
      have hPQa : P a = Q a := hag a (List.mem_cons_self a t) ha
      have hiht := ih hndt hp0t (fun p hp hpne =>
        hag p (List.mem_cons_of_mem a hp) hpne)
      have h1 : ∀ (x y : List (Finset ℕ)),
          (if (true : Bool) = true then x else y) = x := fun x y => by simp
      have h2 : ∀ (x y : List (Finset ℕ)),
          (if (false : Bool) = true then x else y) = y := fun x y => by simp
      rw [List.filter_cons, List.filter_cons, hPQa]
      rcases hQa : Q a with _ | _
      · rw [h2, h2]
        exact hiht
      · rw [h1, h1]
        exact (hiht.cons a).trans (List.Perm.swap p0 a _)

/-- Filtering a disjoint set of elements out of the pool does not affect
whether a planted set is contained in it. -/
theorem subset_filter_iff {cand : List ℕ} {p p0 : Finset ℕ}
    (hdisj : Disjoint p p0) :
    p ⊆ (cand.filter (fun x => x ∉ p0)).toFinset ↔ p ⊆ cand.toFinset := by
  constructor
  · intro h x hx
    have := h hx
    exact List.mem_toFinset.mpr (List.mem_of_mem_filter
      (List.mem_toFinset.mp this))
  · intro h x hx
    apply List.mem_toFinset.mpr
    apply List.mem_filter.mpr
    refine ⟨List.mem_toFinset.mp (h hx), ?_⟩
    simp only [decide_eq_true_eq]
    exact Finset.disjoint_left.mp hdisj hx

/-- Completeness of the enumerator loop: over an oracle that fails exactly on
supersets of one of the pairwise-disjoint non-empty planted sets, the loop
returns precisely the planted sets contained in the current pool, in some
order. -/
theorem enumerator_loop_complete {orc : Oracle σ} {Good : σ → Prop}
    {ps : List (Finset ℕ)}
    (hF : Faithful orc (fun S => ps.any (fun c => decide (c ⊆ S))) Good)
    (hdisj : ps.Pairwise Disjoint) (hne : ∀ p ∈ ps, p ≠ ∅) :
    ∀ (fuel : ℕ) (cand : List ℕ) (kb : KnowledgeBase σ),
      cand.length < fuel → cand.Nodup →
      GoodKB (fun S => ps.any (fun c => decide (c ⊆ S))) Good kb →
      ∃ res kb', enumerator_loop orc fuel cand kb = (some res, kb') ∧
        res.Perm (ps.filter (fun p => decide (p ⊆ cand.toFinset))) := by
  have hm := planted_any_monotone ps
  have hKBF := kb_test_faithful hF
  have hempty : (fun S => ps.any (fun c => decide (c ⊆ S)))
      (∅ : Finset ℕ) = false := by
    simp only [List.any_eq_false]
    intro p hp
    simp only [decide_eq_true_eq, Finset.subset_empty]
    exact hne p hp
  intro fuel
  induction fuel with
  | zero =>
    intro cand kb h
    exact absurd h (by omega)
  | succ fuel ih =>
    intro cand kb hlen hnd hkb
    rcases hfscs : find_single_conflict_set (KnowledgeBase.test orc) kb cand
      with ⟨ncs, kb1⟩
    rcases hfc : ps.any (fun c => decide (c ⊆ cand.toFinset)) with _ | _
    · -- the pool contains no planted set: the first search returns ∅
      have hclean := find_conflicts_smart_additive_clean hKBF hm hkb hfc
      rw [← find_single_conflict_set_eq, hfscs] at hclean
      have hncs : ncs = ∅ := hclean
      subst hncs
      refine ⟨[], kb1, ?_, ?_⟩
      · rw [enumerator_loop_succ]
        simp only [hfscs]
        rw [if_pos trivial]
      · have hfil : ps.filter (fun p => decide (p ⊆ cand.toFinset)) = [] := by
          rw [List.filter_eq_nil_iff]
          intro p hp
          exact fun hdec => (List.any_eq_false.mp hfc p hp) hdec
        rw [hfil]
    · -- the first search finds one of the planted sets
      obtain ⟨R, kb1', heq, hgood1, hsub, hfR, hminR⟩ :=
        find_conflicts_smart_additive_spec hKBF hm hkb hnd hfc hempty
      rw [← find_single_conflict_set_eq, hfscs] at heq
      have hR : ncs = R := congrArg Prod.fst heq
      have hkb1 : kb1 = kb1' := congrArg Prod.snd heq
      subst hR
      subst hkb1
      obtain ⟨p0, hp0, hncsp0⟩ := planted_any_exact hfR hminR
      subst hncsp0
      have hncs_ne : ncs ≠ ∅ := hne ncs hp0
      have hndps := pairwise_disjoint_nodup hdisj hne
      obtain ⟨w, hw⟩ := Finset.nonempty_iff_ne_empty.mpr hncs_ne
      have hwc : w ∈ cand := List.mem_toFinset.mp (hsub hw)
      have hlt : (cand.filter (fun x => x ∉ ncs)).length < cand.length := by
        apply length_filter_lt_of_mem hwc
        simp [hw]
      have hag : ∀ p ∈ ps, p ≠ ncs →
          decide (p ⊆ cand.toFinset) =
          decide (p ⊆ (cand.filter (fun x => x ∉ ncs)).toFinset) := by
        intro p hp hpne
        rw [decide_eq_decide]
        exact (subset_filter_iff (hdisj.forall
          (fun A B h => h.symm) hp hp0 hpne)).symm
      have hQ0 : decide ((ncs : Finset ℕ) ⊆
          (cand.filter (fun x => x ∉ ncs)).toFinset) = false := by
        simp only [decide_eq_false_iff_not]
        intro hsub2
        have := hsub2 hw
        rcases List.mem_filter.mp (List.mem_toFinset.mp this) with ⟨_, hnot⟩
        simp only [decide_eq_true_eq] at hnot
        exact hnot hw
      have hperm := filter_perm_cons (fun p => decide (p ⊆ cand.toFinset))
        (fun p => decide (p ⊆ (cand.filter (fun x => x ∉ ncs)).toFinset))
        hndps hp0 (decide_eq_true hsub) hQ0 hag
      rcases htest : KnowledgeBase.test orc kb1
          (cand.filter (fun x => x ∉ ncs)).toFinset with ⟨v, kb2⟩
      have hfact2 := hKBF kb1 (cand.filter (fun x => x ∉ ncs)).toFinset hgood1
      rw [htest] at hfact2
      rcases v with _ | _
      · -- the remaining pool is clean: stop with just this set
        refine ⟨[ncs], kb2, ?_, ?_⟩
        · rw [enumerator_loop_succ]
          simp only [hfscs]
          rw [if_neg hncs_ne]
          simp only [htest]
        · have hfc2 : ps.any (fun c => decide
              (c ⊆ (cand.filter (fun x => x ∉ ncs)).toFinset)) = false := by
            have := hfact2.1
            simpa using this.symm
          have hfilQ : ps.filter (fun p => decide
              (p ⊆ (cand.filter (fun x => x ∉ ncs)).toFinset)) = [] := by
            rw [List.filter_eq_nil_iff]
            intro p hp
            exact fun hdec => (List.any_eq_false.mp hfc2 p hp) hdec
          rw [hfilQ] at hperm
          exact List.Perm.symm hperm
      · -- the remaining pool still fails: recurse on it
        obtain ⟨rest, kb3, hrec, hrestperm⟩ := ih (cand.filter
            (fun x => x ∉ ncs)) kb2 (by omega) (hnd.filter _) hfact2.2
        refine ⟨ncs :: rest, kb3, ?_, ?_⟩
        · rw [enumerator_loop_succ]
          simp only [hfscs]
          rw [if_neg hncs_ne]
          simp only [htest, hrec]
        · exact (hrestperm.cons ncs).trans hperm.symm

/-! ## The claims -/

/-- A scripted stateful oracle (a test double): answers the queued verdicts in
order, regardless of the queried set. -/
def scriptOracle : Oracle (List Bool) :=
  fun answers S => (answers.headI, answers.tail)

/-- C1: for every oracle that fails exactly on supersets of a single planted
non-empty conflict set `P` drawn from the (duplicate-free) universe, each of
the five single-conflict algorithms returns exactly `P`. -/
theorem claim_C1 {σ : Type} {orc : Oracle σ} {Good : σ → Prop} {P : Finset ℕ}
    (hF : Faithful orc (fun S => decide (P ⊆ S)) Good) {s : σ} (hs : Good s)
    (pool : List ℕ) (hnd : pool.Nodup) (hPne : P ≠ ∅)
    (hPsub : P ⊆ pool.toFinset) :
    (find_conflicts_additive orc s pool).1 = Except.ok P ∧
    (find_conflicts_smart_additive orc s pool).1 = P ∧
    (find_conflicts_subtractive_ddmin orc s pool).1 = P ∧
    (find_conflicts_qxp orc s pool).1 = P ∧
    (find_conflicts_adaptive orc s pool).1 = P := by
  have hm := planted_monotone P
  have hfull : (fun S => decide (P ⊆ S)) pool.toFinset = true :=
    decide_eq_true hPsub
  have hempty : (fun S => decide (P ⊆ S)) (∅ : Finset ℕ) = false := by
    simp only [decide_eq_false_iff_not, Finset.subset_empty]
    exact hPne
  have exact_of : ∀ R : Finset ℕ, (fun S => decide (P ⊆ S)) R = true →
      (∀ x ∈ R, (fun S => decide (P ⊆ S)) (R.erase x) = false) → R = P := by
    intro R hfR hmin
    apply planted_exact (by simpa using hfR)
    intro x hx
    have := hmin x hx
    simpa using this
  refine ⟨?_, ?_, ?_, ?_, ?_⟩
  · obtain ⟨R, s1, heq, _, _, hfR, hmin⟩ :=
      find_conflicts_additive_spec hF hm hs hnd hfull hempty
    rw [heq, exact_of R hfR hmin]
  · obtain ⟨R, s1, heq, _, _, hfR, hmin⟩ :=
      find_conflicts_smart_additive_spec hF hm hs hnd hfull hempty
    rw [heq, exact_of R hfR hmin]
  · obtain ⟨R, s1, heq, _, _, hfR, _, hmin⟩ :=
      find_conflicts_subtractive_ddmin_spec hF hm hempty pool hs hnd
    rw [heq, exact_of R (hfR hfull) hmin]
  · obtain ⟨R, s1, heq, _, _, hfR, _, hmin⟩ :=
      find_conflicts_qxp_spec hF hm pool hs
    rw [heq, exact_of R (hfR hfull) hmin]
  · obtain ⟨R, s1, heq, _, _, hfR, _, hmin⟩ :=
      find_conflicts_adaptive_spec hF hm pool hs hnd
    rw [heq, exact_of R (hfR hfull) hmin]

theorem claim_C1_witness :
    (find_conflicts_additive (TestRunner.run {2}) 0 [0,1,2,3,4]).1
      = Except.ok {2} ∧
    (find_conflicts_smart_additive (TestRunner.run {2}) 0 [0,1,2,3,4]).1
      = {2} ∧
    (find_conflicts_subtractive_ddmin (TestRunner.run {2}) 0 [0,1,2,3,4]).1
      = {2} ∧
    (find_conflicts_qxp (TestRunner.run {2}) 0 [0,1,2,3,4]).1 = {2} ∧
    (find_conflicts_adaptive (TestRunner.run {2}) 0 [0,1,2,3,4]).1 = {2} :=
  claim_C1 (TestRunner_run_faithful {2}) trivial [0,1,2,3,4] (by decide)
    (by decide) (by decide)

/-- C2: for every oracle that fails exactly on supersets of one of `k`
pairwise-disjoint non-empty planted conflict sets contained in the
(duplicate-free) universe, the enumerator returns exactly those `k` sets as an
unordered collection. -/
theorem claim_C2 {σ : Type} {orc : Oracle σ} {Good : σ → Prop}
    {ps : List (Finset ℕ)}
    (hF : Faithful orc (fun S => ps.any (fun c => decide (c ⊆ S))) Good)
    {s : σ} (hs : Good s) (hdisj : ps.Pairwise Disjoint)
    (hne : ∀ p ∈ ps, p ≠ ∅) (pool : List ℕ) (hnd : pool.Nodup)
    (hsub : ∀ p ∈ ps, p ⊆ pool.toFinset) :
    ∃ res kb', find_all_conflict_sets_enumerator orc s pool
      = (some res, kb') ∧ res.Perm ps := by
  obtain ⟨res, kb', heq, hperm⟩ :=
    enumerator_loop_complete hF hdisj hne (pool.length + 1) pool ⟨[], s⟩
      (by omega) hnd ⟨fun e he => absurd he (List.not_mem_nil e), hs⟩
  refine ⟨res, kb', ?_, ?_⟩
  · rw [find_all_conflict_sets_enumerator]
    exact heq
  · have hfil : ps.filter (fun p => decide (p ⊆ pool.toFinset)) = ps :=
      List.filter_eq_self.mpr (fun p hp => decide_eq_true (hsub p hp))
    rw [hfil] at hperm
    exact hperm

theorem claim_C2_witness :
    ∃ res kb', find_all_conflict_sets_enumerator
      (TestRunner.run_real_test [{0}, {2, 3}]) 0 [0, 1, 2, 3]
      = (some res, kb') ∧ res.Perm [{0}, {2, 3}] :=
  claim_C2 (TestRunner_run_real_test_faithful [{0}, {2, 3}]) trivial
    (by decide) (by decide) [0, 1, 2, 3] (by decide) (by decide)

/-- C3: over a monotone oracle that fails on the full (duplicate-free) pool
and reports good on the empty set, each of the five single-conflict
algorithms returns a failing, 1-minimal conflict set.  (Amended: the original
claim omitted the good-empty-set requirement, without which 1-minimality
fails.) -/
theorem claim_C3_amended {σ : Type} {orc : Oracle σ} {f : Finset ℕ → Bool}
    {Good : σ → Prop} (hF : Faithful orc f Good) (hm : MonotoneOracle f)
    {s : σ} (hs : Good s) (pool : List ℕ) (hnd : pool.Nodup)
    (hfull : f pool.toFinset = true) (hempty : f ∅ = false) :
    (∃ R s', find_conflicts_additive orc s pool = (Except.ok R, s') ∧
      f R = true ∧ ∀ x ∈ R, f (R.erase x) = false) ∧
    (∃ R s', find_conflicts_smart_additive orc s pool = (R, s') ∧
      f R = true ∧ ∀ x ∈ R, f (R.erase x) = false) ∧
    (∃ R s', find_conflicts_subtractive_ddmin orc s pool = (R, s') ∧
      f R = true ∧ ∀ x ∈ R, f (R.erase x) = false) ∧
    (∃ R s', find_conflicts_qxp orc s pool = (R, s') ∧
      f R = true ∧ ∀ x ∈ R, f (R.erase x) = false) ∧
    (∃ R s', find_conflicts_adaptive orc s pool = (R, s') ∧
      f R = true ∧ ∀ x ∈ R, f (R.erase x) = false) := by
  refine ⟨?_, ?_, ?_, ?_, ?_⟩
  · obtain ⟨R, s1, heq, _, _, hfR, hmin⟩ :=
      find_conflicts_additive_spec hF hm hs hnd hfull hempty
    exact ⟨R, s1, heq, hfR, hmin⟩
  · obtain ⟨R, s1, heq, _, _, hfR, hmin⟩ :=
      find_conflicts_smart_additive_spec hF hm hs hnd hfull hempty
    exact ⟨R, s1, heq, hfR, hmin⟩
  · obtain ⟨R, s1, heq, _, _, hfR, _, hmin⟩ :=
      find_conflicts_subtractive_ddmin_spec hF hm hempty pool hs hnd
    exact ⟨R, s1, heq, hfR hfull, hmin⟩
  · obtain ⟨R, s1, heq, _, _, hfR, _, hmin⟩ :=
      find_conflicts_qxp_spec hF hm pool hs
    exact ⟨R, s1, heq, hfR hfull, hmin⟩
  · obtain ⟨R, s1, heq, _, _, hfR, _, hmin⟩ :=
      find_conflicts_adaptive_spec hF hm pool hs hnd
    exact ⟨R, s1, heq, hfR hfull, hmin⟩

theorem claim_C3_witness :
    ∃ R s', find_conflicts_smart_additive (TestRunner.run {2}) 0 [0,1,2]
      = (R, s') ∧ (fun S => decide (({2} : Finset ℕ) ⊆ S)) R = true ∧
      ∀ x ∈ R, (fun S => decide (({2} : Finset ℕ) ⊆ S)) (R.erase x) = false :=
  (claim_C3_amended (TestRunner_run_faithful {2}) (planted_monotone {2})
    trivial [0,1,2] (by decide) (by decide) (by decide)).2.1

/-- C3, counterexample to the unamended claim: over the constant-FAIL oracle
(which is monotone and fails on the full pool), the IMCS search returns `{0}`,
but removing its element does not make the verdict good, so 1-minimality does
not hold without the good-empty-set hypothesis. -/
theorem claim_C3_counterexample :
    MonotoneOracle (fun _ => true) ∧
    (fun _ : Finset ℕ => true) (([0, 1] : List ℕ).toFinset) = true ∧
    (find_conflicts_smart_additive (countingOracle (fun _ => true))
      0 [0, 1]).1 = {0} ∧
    (fun _ : Finset ℕ => true) (({0} : Finset ℕ).erase 0) = true := by
  refine ⟨fun S T h ht => rfl, rfl, ?_, rfl⟩
  have h1 : find_next_conflict_element_optimized
      (countingOracle (fun _ => true)) 0 ∅
      (([0, 1] : List ℕ).insertionSort (· ≤ ·)) = (some 0, 1) := by
    simp +decide [find_next_conflict_element_optimized,
      find_next_element_sorted, countingOracle]
  have horc : countingOracle (fun _ => true) 1 (insert 0 ∅) = (true, 2) := rfl
  rw [find_conflicts_smart_additive, smart_additive_loop_eq_of_some h1]
  simp only [horc]
  decide

/-- C4: when the additive step exhausts its pool without finding a culprit,
the iterative additive search (`find_conflicts_additive`) raises the hard
error, but the IMCS search (`find_conflicts_smart_additive`) does not: its
loop simply stops and returns the accumulated set, and its result type has no
error outcome at all.  (Amended: the original claim asserted the hard error
for both searches.) -/
theorem claim_C4_amended :
    (∀ (σ : Type) (orc : Oracle σ) (s s1 s2 : σ) (C : Finset ℕ) (l : List ℕ),
      orc s C = (false, s1) →
      find_one_culprit_recursive orc s1 C l = (none, s2) →
      additive_search_loop orc s C l =
        (Except.error "Additive search failed to find the next culprit.",
          s2)) ∧
    (∀ (σ : Type) (orc : Oracle σ) (s s1 : σ) (C : Finset ℕ) (l : List ℕ),
      find_next_conflict_element_optimized orc s C l = (none, s1) →
      smart_additive_loop orc s C l = (C, s1)) := by
  constructor
  · intro σ orc s s1 s2 C l h1 h2
    exact additive_search_loop_eq_of_false h1 h2
  · intro σ orc s s1 C l h1
    exact smart_additive_loop_eq_of_none h1

theorem claim_C4_witness :
    additive_search_loop scriptOracle [false] (∅ : Finset ℕ) [] =
      (Except.error "Additive search failed to find the next culprit.",
        ([] : List Bool)) ∧
    smart_additive_loop scriptOracle [false] (∅ : Finset ℕ) [0]
      = (∅, ([] : List Bool)) := by
  constructor
  · exact claim_C4_amended.1 (List Bool) scriptOracle [false] [] [] ∅ []
      rfl (by rw [find_one_culprit_recursive])
  · exact claim_C4_amended.2 (List Bool) scriptOracle [false] [] ∅ [0] (by
      simp +decide [find_next_conflict_element_optimized,
        find_next_element_sorted, scriptOracle])

/-- C4, counterexample to the unamended claim: a run of the IMCS search in
which the union of the accumulated background `{1}` and the remaining pool
`[0]` was answered FAIL earlier in the same run, the additive step then
exhausts the pool without a culprit, and the search nevertheless returns the
ordinary (non-error) result `({1}, _)`. -/
theorem claim_C4_counterexample :
    (scriptOracle [true, false, false]
      (({1} : Finset ℕ) ∪ ([0] : List ℕ).toFinset)).1 = true ∧
    (find_next_conflict_element_optimized scriptOracle [false]
      ({1} : Finset ℕ) [0]).1 = none ∧
    find_conflicts_smart_additive scriptOracle [false, true, false, false]
      [0, 1] = ({1}, ([] : List Bool)) := by
  refine ⟨rfl, ?_, ?_⟩
  · simp +decide [find_next_conflict_element_optimized,
      find_next_element_sorted, scriptOracle]
  · have h1 : find_next_conflict_element_optimized scriptOracle
        [false, true, false, false] ∅
        (([0, 1] : List ℕ).insertionSort (· ≤ ·))
        = (some 1, [false, false]) := by
      simp +decide [find_next_conflict_element_optimized,
        find_next_element_sorted, scriptOracle]
    have horc : scriptOracle [false, false] (insert 1 ∅)
        = (false, [false]) := rfl
    have h2 : find_next_conflict_element_optimized scriptOracle [false]
        (insert 1 ∅) ((([0, 1] : List ℕ).insertionSort (· ≤ ·)).erase 1)
        = (none, []) := by
      simp +decide [find_next_conflict_element_optimized,
        find_next_element_sorted, scriptOracle]
    rw [find_conflicts_smart_additive, smart_additive_loop_eq_of_some h1]
    simp only [horc]
    rw [smart_additive_loop_eq_of_none h2]
    decide

/-- C5: on a pool that does not fail under a monotone faithful oracle, the
IMCS search returns the empty set — but only after running its additive
sub-search; there is no pre-check, and oracle calls are issued (see the
counterexample).  (Amended: the original claim asserted an immediate
pre-check with no oracle calls.) -/
theorem claim_C5_amended {σ : Type} {orc : Oracle σ} {f : Finset ℕ → Bool}
    {Good : σ → Prop} (hF : Faithful orc f Good) (hm : MonotoneOracle f)
    {s : σ} (hs : Good s) (pool : List ℕ)
    (hclean : f pool.toFinset = false) :
    (find_conflicts_smart_additive orc s pool).1 = ∅ :=
  find_conflicts_smart_additive_clean hF hm hs hclean

theorem claim_C5_witness :
    (find_conflicts_smart_additive
      (countingOracle (fun S => decide (({5} : Finset ℕ) ⊆ S)))
      0 [0, 1]).1 = ∅ :=
  claim_C5_amended (countingOracle_faithful
      (fun S => decide (({5} : Finset ℕ) ⊆ S)))
    (planted_monotone {5}) trivial [0, 1] (by decide)

/-- C5, counterexample to the unamended claim: on the clean pool `[0, 1]` the
IMCS search does return the empty set, but its invocation counter advances
from 0 to 2 — two real oracle calls are issued by the additive sub-search, so
there is no pre-check that avoids entering the loop. -/
theorem claim_C5_counterexample :
    MonotoneOracle (fun S => decide (({5} : Finset ℕ) ⊆ S)) ∧
    (fun S => decide (({5} : Finset ℕ) ⊆ S)) (([0, 1] : List ℕ).toFinset)
      = false ∧
    find_conflicts_smart_additive
      (countingOracle (fun S => decide (({5} : Finset ℕ) ⊆ S))) 0 [0, 1]
      = (∅, 2) := by
  refine ⟨planted_monotone {5}, by decide, ?_⟩
  have h1 : find_next_conflict_element_optimized
      (countingOracle (fun S => decide (({5} : Finset ℕ) ⊆ S))) 0 ∅
      (([0, 1] : List ℕ).insertionSort (· ≤ ·)) = (none, 2) := by
    simp +decide [find_next_conflict_element_optimized,
      find_next_element_sorted, countingOracle]
  rw [find_conflicts_smart_additive, smart_additive_loop_eq_of_none h1]

theorem run_additive_planted2 :
    find_conflicts_additive (TestRunner.run {2}) 0 [0,1,2,3,4]
      = (Except.ok {2}, 6) := by
  have h1 : find_one_culprit_recursive (TestRunner.run {2}) 2 ∅ [0,1,2,3,4]
      = (some 2, 5) := by
    simp +decide [find_one_culprit_recursive, TestRunner.run]
  have horc0 : TestRunner.run {2} 0 (([0,1,2,3,4] : List ℕ).toFinset)
      = (true, 1) := by decide
  have horc1 : TestRunner.run {2} 1 (∅ : Finset ℕ) = (false, 2) := by decide
  have horc2 : TestRunner.run {2} 5 (insert 2 ∅ : Finset ℕ)
      = (true, 6) := by decide
  have hstep1 : additive_search_loop (TestRunner.run {2}) 1 ∅ [0,1,2,3,4]
      = additive_search_loop (TestRunner.run {2}) 5 (insert 2 ∅)
          (([0,1,2,3,4] : List ℕ).erase 2) :=
    additive_search_loop_eq_of_false horc1 h1
  have hstep2 : additive_search_loop (TestRunner.run {2}) 5 (insert 2 ∅)
      (([0,1,2,3,4] : List ℕ).erase 2) = (Except.ok (insert 2 ∅), 6) :=
    additive_search_loop_eq_of_true horc2
  rw [find_conflicts_additive]
  simp only [horc0]
  rw [hstep1, hstep2]
  have he : (insert 2 ∅ : Finset ℕ) = {2} := by decide
  rw [he]

theorem run_smart_planted2 :
    find_conflicts_smart_additive (TestRunner.run {2}) 0 [0,1,2,3,4]
      = ({2}, 3) := by
  have h1 : find_next_conflict_element_optimized (TestRunner.run {2}) 0 ∅
      (([0,1,2,3,4] : List ℕ).insertionSort (· ≤ ·)) = (some 2, 2) := by
    simp +decide [find_next_conflict_element_optimized,
      find_next_element_sorted, TestRunner.run]
  rw [find_conflicts_smart_additive, smart_additive_loop_eq_of_some h1]
  simp +decide [TestRunner.run]

theorem run_ddmin_planted2 :
    find_conflicts_subtractive_ddmin (TestRunner.run {2}) 0 [0,1,2,3,4]
      = ({2}, 4) := by
  have hscan1 : ddmin_scan (TestRunner.run {2}) 1 [0,1,2,3,4]
      (([0,1,2,3,4] : List ℕ).insertionSort (· ≤ ·)) 2 (List.range 2)
      = (some [0, 2, 4], 3) := by
    simp +decide [ddmin_scan, partition_slice, TestRunner.run]
  have hscan2 : ddmin_scan (TestRunner.run {2}) 3 [0,2,4]
      (([0,2,4] : List ℕ).insertionSort (· ≤ ·)) 2 (List.range 2)
      = (some [2], 4) := by
    simp +decide [ddmin_scan, partition_slice, TestRunner.run]
  have horc : TestRunner.run {2} 0 (([0,1,2,3,4] : List ℕ).toFinset)
      = (true, 1) := by decide
  have hloop : ddmin_loop (TestRunner.run {2}) 1 [0,1,2,3,4] 2 (by omega)
      = ([2], 4) := by
    rw [ddmin_loop_eq_some (by omega) (by omega) (by decide) hscan1]
    rw [ddmin_loop_eq_some (by omega) (by omega) (by decide) hscan2]
    exact ddmin_loop_eq_small (by omega) (by decide)
  rw [find_conflicts_subtractive_ddmin]
  simp only [horc, hloop]
  decide

theorem run_qxp_planted2 :
    find_conflicts_qxp (TestRunner.run {2}) 0 [0,1,2,3,4] = ({2}, 6) := by
  simp +decide [find_conflicts_qxp, quickxplain_recursive, TestRunner.run]

theorem run_adaptive_planted2 :
    find_conflicts_adaptive (TestRunner.run {2}) 0 [0,1,2,3,4]
      = ({2}, 6) := by
  have hC : adaptive_recursive (TestRunner.run {2}) 3
      ((∅ ∪ ([0,1] : List ℕ).toFinset) ∪ ([2] : List ℕ).toFinset) [3,4]
      = (∅, 4) :=
    adaptive_eq_true (by decide) (by decide)
  have hD : adaptive_recursive (TestRunner.run {2}) 4
      ((∅ ∪ ([0,1] : List ℕ).toFinset) ∪ ∅) [2]
      = (([2] : List ℕ).toFinset, 5) :=
    adaptive_eq_one (by decide) (by decide) (by decide) (by decide)
  have hB : adaptive_recursive (TestRunner.run {2}) 2
      (∅ ∪ ([0,1] : List ℕ).toFinset) [2,3,4] = ({2} ∪ ∅, 5) :=
    (adaptive_eq_split (by decide) (by decide) (by decide) (by decide)
      hC hD).trans (by decide)
  have hE : adaptive_recursive (TestRunner.run {2}) 5 (∅ ∪ ({2} ∪ ∅)) [0,1]
      = (∅, 6) :=
    adaptive_eq_true (by decide) (by decide)
  have hA : adaptive_recursive (TestRunner.run {2}) 1 ∅ [0,1,2,3,4]
      = (∅ ∪ ({2} ∪ ∅), 6) :=
    adaptive_eq_split (by decide) (by decide) (by decide) (by decide) hB hE
  have horc : TestRunner.run {2} 0 (([0,1,2,3,4] : List ℕ).toFinset)
      = (true, 1) := by decide
  rw [find_conflicts_adaptive]
  simp only [horc, hA]
  decide

/-- C6: on the universe `[0,1,2,3,4]` with planted conflict `{2}`, every
algorithm returns `{2}`, but only the IMCS search stays within 3 oracle
calls: the exact invocation counters are additive 6, IMCS 3, ddmin 4,
QuickXplain 6, adaptive 6.  (Amended: the original claim asserted at most 3
calls for every algorithm.) -/
theorem claim_C6_amended :
    find_conflicts_additive (TestRunner.run {2}) 0 [0,1,2,3,4]
      = (Except.ok {2}, 6) ∧
    find_conflicts_smart_additive (TestRunner.run {2}) 0 [0,1,2,3,4]
      = ({2}, 3) ∧
    find_conflicts_subtractive_ddmin (TestRunner.run {2}) 0 [0,1,2,3,4]
      = ({2}, 4) ∧
    find_conflicts_qxp (TestRunner.run {2}) 0 [0,1,2,3,4] = ({2}, 6) ∧
    find_conflicts_adaptive (TestRunner.run {2}) 0 [0,1,2,3,4] = ({2}, 6) :=
  ⟨run_additive_planted2, run_smart_planted2, run_ddmin_planted2,
    run_qxp_planted2, run_adaptive_planted2⟩

/-- C6, counterexample to the unamended claim: the QuickXplain search on the
planted-`{2}` universe `[0,1,2,3,4]` increments the oracle invocation counter
6 times, which exceeds the claimed bound of 3. -/
theorem claim_C6_counterexample :
    (find_conflicts_qxp (TestRunner.run {2}) 0 [0,1,2,3,4]).2 = 6 ∧
    ¬ ((6 : ℕ) ≤ 3) := by
  constructor
  · rw [run_qxp_planted2]
  · omega

/-- C7: against a counting oracle, a fresh knowledge base answers a sequence
of queries making exactly one real oracle call per distinct queried subset
(the counter ends at the number of distinct subsets), and a query whose key is
cached returns the cached verdict leaving the knowledge base unchanged. -/
theorem claim_C7 (f : Finset ℕ → Bool) (qs : List (Finset ℕ)) :
    (kb_run_queries (countingOracle f) ⟨[], 0⟩ qs).inner
      = qs.toFinset.card ∧
    ∀ (σ : Type) (orc : Oracle σ) (kb : KnowledgeBase σ) (S : Finset ℕ)
      (b : Bool), kb.cache.lookup S = some b →
      KnowledgeBase.test orc kb S = (b, kb) := by
  constructor
  · rcases kb_run_queries_count qs ⟨[], 0⟩ with ⟨h1, h2⟩
    have hkeys0 : cacheKeys (⟨[], 0⟩ : KnowledgeBase ℕ) = ∅ := rfl
    rw [hkeys0] at h1 h2
    rw [h1] at h2
    simp only [Finset.card_empty, Finset.empty_union] at h2
    have h2q : (kb_run_queries (countingOracle f) ⟨[], 0⟩ qs).inner + 0
        = 0 + qs.toFinset.card := h2
    omega
  · intro σ orc kb S b h
    exact kb_test_cached h

theorem claim_C7_witness :
    (kb_run_queries (countingOracle (fun _ => true)) ⟨[], 0⟩
      [{0}, {0}, {1}]).inner = 2 ∧
    KnowledgeBase.test (countingOracle (fun _ => true)) ⟨[({0}, true)], 5⟩ {0}
      = (true, ⟨[({0}, true)], 5⟩) := by
  constructor
  · rw [(claim_C7 (fun _ => true) [{0}, {0}, {1}]).1]
    decide
  · exact (claim_C7 (fun _ => true) []).2 ℕ (countingOracle (fun _ => true))
      ⟨[({0}, true)], 5⟩ {0} true rfl

/-- C8: running the IMCS single-conflict search through the memoizing cache
returns the same conflict set as running it directly against the counting
oracle, and makes no more real oracle invocations. -/
theorem claim_C8 (f : Finset ℕ → Bool) (pool : List ℕ) :
    (find_single_conflict_set (KnowledgeBase.test (countingOracle f))
        ⟨[], 0⟩ pool).1
      = (find_single_conflict_set (countingOracle f) 0 pool).1 ∧
    (find_single_conflict_set (KnowledgeBase.test (countingOracle f))
        ⟨[], 0⟩ pool).2.inner
      ≤ (find_single_conflict_set (countingOracle f) 0 pool).2 := by
  have h := smart_additive_loop_pair (f := f)
  rcases smart_additive_loop_pair
      ((pool.insertionSort (· ≤ ·)).length) (pool.insertionSort (· ≤ ·)) ∅
      ⟨[], 0⟩ 0 (le_refl _) (fun e he => absurd he (List.not_mem_nil e)) with
    ⟨h1, _, h3⟩
  have h3q : (smart_additive_loop (KnowledgeBase.test (countingOracle f))
      ⟨[], 0⟩ ∅ (pool.insertionSort (· ≤ ·))).2.inner + 0
      ≤ 0 + (smart_additive_loop (countingOracle f) 0 ∅
        (pool.insertionSort (· ≤ ·))).2 := h3
  rw [find_single_conflict_set, find_single_conflict_set]
  exact ⟨h1, by omega⟩

/-- C9: whatever the oracle does, the conflict sets returned by the
enumerator are pairwise disjoint and drawn from the universe. -/
theorem claim_C9 {σ : Type} (orc : Oracle σ) (s : σ) (pool : List ℕ)
    (res : List (Finset ℕ))
    (h : (find_all_conflict_sets_enumerator orc s pool).1 = some res) :
    (∀ X ∈ res, X ⊆ pool.toFinset) ∧ List.Pairwise Disjoint res := by
  rcases hq : find_all_conflict_sets_enumerator orc s pool with ⟨ores, kb1⟩
  rw [hq] at h
  have hores : ores = some res := h
  subst hores
  rw [find_all_conflict_sets_enumerator] at hq
  exact enumerator_loop_inv (pool.length + 1) pool ⟨[], s⟩ res kb1 hq

theorem claim_C9_witness :
    (∀ X ∈ [({0} : Finset ℕ)], X ⊆ ([0, 1] : List ℕ).toFinset) ∧
    List.Pairwise Disjoint [({0} : Finset ℕ)] :=
  claim_C9 (TestRunner.run_real_test [{0}]) 0 [0, 1] [{0}] (by
    have h1 : find_next_conflict_element_optimized
        (KnowledgeBase.test (TestRunner.run_real_test [{0}])) ⟨[], 0⟩ ∅
        (([0, 1] : List ℕ).insertionSort (· ≤ ·))
        = (some 0, ⟨[({0}, true)], 1⟩) := by
      simp +decide [find_next_conflict_element_optimized,
        find_next_element_sorted, KnowledgeBase.test,
        TestRunner.run_real_test, List.lookup]
    have horc1 : KnowledgeBase.test (TestRunner.run_real_test [{0}])
        ⟨[({0}, true)], 1⟩ (insert 0 ∅) = (true, ⟨[({0}, true)], 1⟩) := rfl
    have hfscs : find_single_conflict_set
        (KnowledgeBase.test (TestRunner.run_real_test [{0}])) ⟨[], 0⟩ [0, 1]
        = (insert 0 ∅, ⟨[({0}, true)], 1⟩) := by
      rw [find_single_conflict_set, smart_additive_loop_eq_of_some h1]
      simp only [horc1]
    have htest : KnowledgeBase.test (TestRunner.run_real_test [{0}])
        ⟨[({0}, true)], 1⟩
        ((([0, 1] : List ℕ).filter
          (fun x => x ∉ (insert 0 ∅ : Finset ℕ))).toFinset)
        = (false, ⟨[({1}, false), ({0}, true)], 2⟩) := rfl
    rw [find_all_conflict_sets_enumerator]
    rw [enumerator_loop_succ]
    simp only [hfscs]
    rw [if_neg (by decide)]
    simp only [htest]
    decide)

/-- C10: the enumerator terminates with a result on every finite universe,
for every oracle: each iteration removes a non-empty set from the pool, so
`|universe| + 1` iterations always suffice. -/
theorem claim_C10 {σ : Type} (orc : Oracle σ) (s : σ) (pool : List ℕ) :
    ∃ res kb', find_all_conflict_sets_enumerator orc s pool
      = (some res, kb') := by
  rw [find_all_conflict_sets_enumerator]
  exact enumerator_loop_some (pool.length + 1) pool ⟨[], s⟩ (by omega)

end BisectTool
